import Mathlib

/-!
Verification development for the finalyze ledger-tagging pipeline.

The definitions below are a shallow embedding of the Python source:
polars DataFrames become lists of typed records, column expressions become
functions on records, and the pipeline stages of
finalyze/source/{schema,raw,tag,data}.py and finalyze/analysis/analyze.py
become pure Lean functions on those lists.
-/

set_option maxHeartbeats 1000000

/-- Calendar date (year, month, day), modelling the polars Date values of the
raw schema (finalyze/source/schema.py, RAW_SCHEMA). -/
structure PDate where
  year : Nat
  month : Nat
  day : Nat
deriving DecidableEq, Repr

/-- Decimal representation of a number left-padded with zeros to the given
width, as used by ISO date rendering. -/
def padNum (width : Nat) (n : Nat) : String :=
  String.mk (List.replicate (width - (toString n).length) (Char.ofNat 48)) ++ toString n

/-- ISO rendering YYYY-MM-DD of a date, the canonical string a polars Date
column takes when cast to string by pl.concat_str. -/
def dateToString (d : PDate) : String :=
  padNum 4 d.year ++ "-" ++ padNum 2 d.month ++ "-" ++ padNum 2 d.day

/-- Canonical string rendering of an amount.  Amounts (Float64 in the source)
are modelled as rationals; this function stands in for the fixed decimal
rendering pl.concat_str applies to the amount column.  Only determinism and
functional dependence on the value matter for the claims. -/
def amountToString (q : ℚ) : String :=
  toString q.num ++ "/" ++ toString q.den

/-- Raw transaction row, the five columns of RAW_SCHEMA
(finalyze/source/schema.py) in declaration order. -/
structure RawRow where
  account : String
  source : String
  date : PDate
  amount : ℚ
  description : String
deriving DecidableEq, Repr

/-- String handed to the 64-bit hash by derive_hash
(finalyze/source/raw.py): pl.concat_str(HASH_COLUMNS) concatenates the five
natural-key columns as strings with the default empty separator, in
HASH_COLUMNS order (account, source, date, description, amount). -/
def hashInput (r : RawRow) : String :=
  r.account ++ r.source ++ dateToString r.date ++ r.description ++ amountToString r.amount

/-- Stand-in for the fixed, deterministic 64-bit string hash applied by
pl.Expr.hash in derive_hash.  The concrete algorithm lives inside polars and
is opaque to the repository; it is modelled by an FNV-style fold reduced
modulo 2^64.  No claim depends on the algorithm, only on the hash being a
deterministic function of the input string. -/
def strHash64 (s : String) : Nat :=
  s.data.foldl (fun a c => ((a ^^^ c.toNat) * 1099511628211) % 18446744073709551616)
    14695981039346656037

/-- Fingerprint of a transaction: the 64-bit hash of the separator-less
concatenation of the five natural-key fields (derive_hash in
finalyze/source/raw.py). -/
def fingerprint (r : RawRow) : Nat :=
  strHash64 (hashInput r)

/-- Row carrying the derived hash column (output of derive_hash). -/
structure HashedRow where
  raw : RawRow
  hash : Nat
deriving DecidableEq, Repr

/-- Output rows of derive_hash: every raw row extended with its fingerprint. -/
def deriveHash (rows : List RawRow) : List HashedRow :=
  rows.map (fun r => ⟨r, fingerprint r⟩)

/-- Row of the TAGGED_SCHEMA (finalyze/source/schema.py): the raw columns
plus nullable tag and subtag columns and the hash column. -/
structure TaggedRow where
  raw : RawRow
  tag : Option String
  subtag : Option String
  hash : Nat
deriving DecidableEq, Repr

/-- C1: the fingerprint is a pure, deterministic function of exactly the five
natural-key fields: repeated evaluation on the same row yields the same
value, and any two rows agreeing on account, source, date, description and
amount (differing at most in tag, subtag or other columns) receive equal
fingerprints. -/
theorem c1_fingerprint_natural_key (r1 r2 : TaggedRow)
    (ha : r1.raw.account = r2.raw.account) (hs : r1.raw.source = r2.raw.source)
    (hd : r1.raw.date = r2.raw.date) (hm : r1.raw.amount = r2.raw.amount)
    (hde : r1.raw.description = r2.raw.description) :
    fingerprint r1.raw = fingerprint r1.raw ∧ fingerprint r1.raw = fingerprint r2.raw := by
  refine ⟨rfl, ?_⟩
  have hraw : r1.raw = r2.raw := by
    obtain ⟨⟨a1, s1, d1, m1, e1⟩, t1, u1, h1⟩ := r1
    obtain ⟨⟨a2, s2, d2, m2, e2⟩, t2, u2, h2⟩ := r2
    simp only at ha hs hd hm hde
    simp [ha, hs, hd, hm, hde]
  rw [hraw]

/-- C1 witness: the natural-key agreement hypotheses hold at a concrete pair
of rows differing only in tag and subtag, and their fingerprints agree. -/
theorem c1_fingerprint_natural_key_witness :
    (let r1 : TaggedRow := ⟨⟨"chk", "debit", ⟨2024, 1, 5⟩, 1, "Coffee"⟩, some "Food", some "Coffee", 0⟩
     let r2 : TaggedRow := ⟨⟨"chk", "debit", ⟨2024, 1, 5⟩, 1, "Coffee"⟩, none, none, 7⟩
     fingerprint r1.raw = fingerprint r1.raw ∧ fingerprint r1.raw = fingerprint r2.raw) :=
  c1_fingerprint_natural_key _ _ rfl rfl rfl rfl rfl

/-- C2 counterexample: the claim that the pre-hash canonicalized strings of
two rows with distinct natural-key tuples but coinciding plain
concatenations are distinct is false: with account and source
("ab", "c") versus ("a", "bc") and all other fields equal, the hash inputs
coincide, so the two distinct tuples are conflated to the same hash input
and the same hash value. -/
theorem c2_counterexample :
    (let rA : RawRow := ⟨"ab", "c", ⟨2024, 1, 5⟩, 1, "d"⟩
     let rB : RawRow := ⟨"a", "bc", ⟨2024, 1, 5⟩, 1, "d"⟩
     rA ≠ rB ∧ hashInput rA = hashInput rB ∧ fingerprint rA = fingerprint rB) := by
  refine ⟨by decide, by decide, ?_⟩
  have h : hashInput (⟨"ab", "c", ⟨2024, 1, 5⟩, 1, "d"⟩ : RawRow)
      = hashInput (⟨"a", "bc", ⟨2024, 1, 5⟩, 1, "d"⟩ : RawRow) := by decide
  simp only [fingerprint, h]

/-- C2 amended: the string concatenation used by the fingerprint is the
plain separator-less join of the five canonicalized fields, and it is
ambiguous: every two rows whose plain concatenations coincide (such as
account/source ("ab", "c") versus ("a", "bc")) receive the same pre-hash
canonicalized string and hence the same input to the 64-bit hash; such
tuples are conflated to the same hash value. -/
theorem c2_amended_plain_concat_conflates (r1 r2 : RawRow)
    (h : r1.account ++ r1.source ++ dateToString r1.date ++ r1.description
          ++ amountToString r1.amount
       = r2.account ++ r2.source ++ dateToString r2.date ++ r2.description
          ++ amountToString r2.amount) :
    hashInput r1 = hashInput r2 ∧ fingerprint r1 = fingerprint r2 := by
  have hin : hashInput r1 = hashInput r2 := h
  exact ⟨hin, by simp only [fingerprint, hin]⟩

/-- C2 amended witness: the concatenation-coincidence hypothesis holds at the
concrete pair with account/source ("ab", "c") and ("a", "bc"), and the
conflation conclusion follows. -/
theorem c2_amended_plain_concat_conflates_witness :
    (hashInput ⟨"ab", "c", ⟨2024, 1, 5⟩, 1, "d"⟩ = hashInput ⟨"a", "bc", ⟨2024, 1, 5⟩, 1, "d"⟩
     ∧ fingerprint ⟨"ab", "c", ⟨2024, 1, 5⟩, 1, "d"⟩ = fingerprint ⟨"a", "bc", ⟨2024, 1, 5⟩, 1, "d"⟩) :=
  c2_amended_plain_concat_conflates _ _ (by decide)

/-- Entry of the Tag Store table, columns of TAG_SCHEMA
(finalyze/source/tag.py) in declaration order: tag, subtag, hash.  The
string columns are nullable in polars, hence Option String. -/
structure TagEntry where
  tag : Option String
  subtag : Option String
  hash : Nat
deriving DecidableEq, Repr

/-- Strict nulls-first order on nullable strings: polars sorts null below
every string by default (nulls_last=False). -/
def optStrLt (a b : Option String) : Prop :=
  match a, b with
  | none, some _ => True
  | some x, some y => x < y
  | _, _ => False

instance instDecOptStrLt : DecidableRel optStrLt := fun a b =>
  match a, b with
  | none, some _ => isTrue trivial
  | none, none => isFalse (fun h => h)
  | some _, none => isFalse (fun h => h)
  | some x, some y => inferInstanceAs (Decidable (x < y))

theorem optStrLt_trans {a b c : Option String} (h1 : optStrLt a b) (h2 : optStrLt b c) :
    optStrLt a c := by
  match a, b, c with
  | none, some _, some _ => exact trivial
  | some x, some y, some z => exact lt_trans h1 h2

theorem optStrLt_asymm {a b : Option String} (h1 : optStrLt a b) : ¬ optStrLt b a := by
  match a, b with
  | none, some _ => exact fun h => h
  | some x, some y => exact fun h => absurd h1 (lt_asymm h)

theorem optStrLt_connex {a b : Option String} (h : a ≠ b) : optStrLt a b ∨ optStrLt b a := by
  match a, b with
  | none, none => exact absurd rfl h
  | none, some _ => exact Or.inl trivial
  | some _, none => exact Or.inr trivial
  | some x, some y =>
    rcases lt_trichotomy x y with hlt | heq | hgt
    · exact Or.inl hlt
    · exact absurd (congrArg some heq) h
    · exact Or.inr hgt

/-- Lexicographic order on Tag Store entries by (tag, subtag, hash), the sort
key used by Tagger.apply_tags and write_tags_file
(sort(*TAG_SCHEMA.keys())). -/
def tagEntryLe (a b : TagEntry) : Prop :=
  optStrLt a.tag b.tag
    ∨ (a.tag = b.tag
        ∧ (optStrLt a.subtag b.subtag ∨ (a.subtag = b.subtag ∧ a.hash ≤ b.hash)))

instance instDecTagEntryLe : DecidableRel tagEntryLe := fun a b => by
  unfold tagEntryLe
  infer_instance

theorem tagEntryLe_trans (a b c : TagEntry) (h1 : tagEntryLe a b) (h2 : tagEntryLe b c) :
    tagEntryLe a c := by
  rcases h1 with h1 | ⟨e1, h1⟩
  · rcases h2 with h2 | ⟨e2, h2⟩
    · exact Or.inl (optStrLt_trans h1 h2)
    · exact Or.inl (e2 ▸ h1)
  · rcases h2 with h2 | ⟨e2, h2⟩
    · exact Or.inl (e1 ▸ h2)
    · refine Or.inr ⟨e1.trans e2, ?_⟩
      rcases h1 with h1 | ⟨f1, h1⟩
      · rcases h2 with h2 | ⟨f2, h2⟩
        · exact Or.inl (optStrLt_trans h1 h2)
        · exact Or.inl (f2 ▸ h1)
      · rcases h2 with h2 | ⟨f2, h2⟩
        · exact Or.inl (f1 ▸ h2)
        · exact Or.inr ⟨f1.trans f2, le_trans h1 h2⟩

theorem tagEntryLe_total (a b : TagEntry) : tagEntryLe a b ∨ tagEntryLe b a := by
  by_cases et : a.tag = b.tag
  · by_cases es : a.subtag = b.subtag
    · rcases Nat.le_total a.hash b.hash with h | h
      · exact Or.inl (Or.inr ⟨et, Or.inr ⟨es, h⟩⟩)
      · exact Or.inr (Or.inr ⟨et.symm, Or.inr ⟨es.symm, h⟩⟩)
    · rcases optStrLt_connex es with h | h
      · exact Or.inl (Or.inr ⟨et, Or.inl h⟩)
      · exact Or.inr (Or.inr ⟨et.symm, Or.inl h⟩)
  · rcases optStrLt_connex et with h | h
    · exact Or.inl (Or.inl h)
    · exact Or.inr (Or.inl h)

theorem tagEntryLe_antisymm (a b : TagEntry) (h1 : tagEntryLe a b) (h2 : tagEntryLe b a) :
    a = b := by
  rcases h1 with h1 | ⟨e1, h1⟩
  · rcases h2 with h2 | ⟨e2, h2⟩
    · exact absurd h1 (optStrLt_asymm h2)
    · exact absurd (e2 ▸ h1) (optStrLt_asymm (e2 ▸ h1))
  · rcases h2 with h2 | ⟨e2, h2⟩
    · exact absurd (e1 ▸ h2) (optStrLt_asymm (e1 ▸ h2))
    · rcases h1 with h1 | ⟨f1, h1⟩
      · rcases h2 with h2 | ⟨f2, h2⟩
        · exact absurd h1 (optStrLt_asymm h2)
        · exact absurd (f2 ▸ h1) (optStrLt_asymm (f2 ▸ h1))
      · rcases h2 with h2 | ⟨f2, h2⟩
        · exact absurd (f1 ▸ h2) (optStrLt_asymm (f1 ▸ h2))
        · obtain ⟨ta, sa, ha⟩ := a
          obtain ⟨tb, sb, hb⟩ := b
          simp only at e1 f1 h1 h2
          simp [e1, f1, Nat.le_antisymm h1 h2]

instance : IsTrans TagEntry tagEntryLe := ⟨tagEntryLe_trans⟩

instance : IsTotal TagEntry tagEntryLe := ⟨tagEntryLe_total⟩

instance : IsAntisymm TagEntry tagEntryLe := ⟨tagEntryLe_antisymm⟩

/-- Deterministic sort of a tag table by (tag, subtag, hash), modelling
DataFrame.sort(*TAG_SCHEMA.keys()) / sort(*TAG_SCHEMA). -/
def sortTagEntries (l : List TagEntry) : List TagEntry :=
  List.insertionSort tagEntryLe l

/-- Deduplication by the hash column keeping the last occurrence, modelling
DataFrame.unique(subset="hash", keep="last") as used by Tagger.apply_tags.
An entry is kept exactly when no later entry shares its hash. -/
def uniqueByHashKeepLast : List TagEntry → List TagEntry
  | [] => []
  | e :: rest =>
    if rest.any (fun x => x.hash == e.hash) then uniqueByHashKeepLast rest
    else e :: uniqueByHashKeepLast rest

/-- Upsert of one entry into the Tag Store, modelling Tagger.apply_tags
(finalyze/source/tag.py): concatenate the new row, deduplicate by hash
keeping the last, and re-sort by (tag, subtag, hash). -/
def upsertTag (tags : List TagEntry) (e : TagEntry) : List TagEntry :=
  sortTagEntries (uniqueByHashKeepLast (tags ++ [e]))

theorem mem_uniqueByHashKeepLast {x : TagEntry} :
    ∀ {l : List TagEntry}, x ∈ uniqueByHashKeepLast l → x ∈ l := by
  intro l
  induction l with
  | nil =>
    intro h
    rw [uniqueByHashKeepLast] at h
    exact absurd h (List.not_mem_nil x)
  | cons e rest ih =>
    intro hx
    unfold uniqueByHashKeepLast at hx
    by_cases hc : rest.any (fun x => x.hash == e.hash)
    · rw [if_pos hc] at hx
      exact List.mem_cons_of_mem e (ih hx)
    · rw [if_neg hc] at hx
      rcases List.mem_cons.mp hx with h | h
      · exact h ▸ List.mem_cons_self x rest
      · exact List.mem_cons_of_mem e (ih h)

theorem any_hash_filter (l : List TagEntry) (a e : TagEntry) (hne : ¬ a.hash = e.hash) :
    (l.filter (fun x => x.hash != e.hash)).any (fun x => x.hash == a.hash)
      = l.any (fun x => x.hash == a.hash) := by
  induction l with
  | nil => rfl
  | cons y l ih =>
    by_cases hy : y.hash = e.hash
    · have h1 : (y.hash != e.hash) = false := by simp [hy]
      have h2 : (y.hash == a.hash) = false := by
        simp only [beq_eq_false_iff_ne, ne_eq]
        intro h
        exact hne (by rw [← h, hy])
      simp [List.filter_cons, h1, List.any_cons, h2, ih]
    · have h1 : (y.hash != e.hash) = true := by simp [hy]
      simp [List.filter_cons, h1, List.any_cons, ih]

theorem uniqueByHashKeepLast_append_singleton (l : List TagEntry) (e : TagEntry) :
    uniqueByHashKeepLast (l ++ [e])
      = uniqueByHashKeepLast (l.filter (fun x => x.hash != e.hash)) ++ [e] := by
  induction l with
  | nil => simp [uniqueByHashKeepLast]
  | cons a l ih =>
    by_cases ha : a.hash = e.hash
    · have hcond : ((l ++ [e]).any (fun x => x.hash == a.hash)) = true := by
        simp [List.any_append, ha]
      have hfa : (a.hash != e.hash) = false := by simp [ha]
      simp only [List.cons_append, uniqueByHashKeepLast, List.append_eq, hcond, if_true,
        List.filter_cons, hfa, Bool.false_eq_true, if_false, ih]
    · have hcond : ((l ++ [e]).any (fun x => x.hash == a.hash))
          = l.any (fun x => x.hash == a.hash) := by
        have : (e.hash == a.hash) = false := by
          simp only [beq_eq_false_iff_ne, ne_eq]
          exact fun h => ha h.symm
        simp [List.any_append, this]
      have hfa : (a.hash != e.hash) = true := by simp [ha]
      by_cases hl : l.any (fun x => x.hash == a.hash)
      · have hl2 : ((l.filter (fun x => x.hash != e.hash)).any
            (fun x => x.hash == a.hash)) = true := by
          rw [any_hash_filter l a e ha]; exact hl
        simp only [List.cons_append, uniqueByHashKeepLast, List.append_eq, hcond, hl, if_true,
          List.filter_cons, hfa, if_true, hl2, ih]
      · have hl' : l.any (fun x => x.hash == a.hash) = false := by
          exact Bool.not_eq_true _ ▸ (by simpa using hl)
        have hl2 : ((l.filter (fun x => x.hash != e.hash)).any
            (fun x => x.hash == a.hash)) = false := by
          rw [any_hash_filter l a e ha]; exact hl'
        simp only [List.cons_append, uniqueByHashKeepLast, List.append_eq, hcond, hl', if_false,
          List.filter_cons, hfa, if_true, hl2, ih, Bool.false_eq_true,
          List.cons_append]

theorem uniqueByHashKeepLast_hash_nodup (l : List TagEntry) :
    ((uniqueByHashKeepLast l).map (fun x => x.hash)).Nodup := by
  induction l with
  | nil => simp [uniqueByHashKeepLast]
  | cons e rest ih =>
    unfold uniqueByHashKeepLast
    by_cases hc : rest.any (fun x => x.hash == e.hash)
    · rw [if_pos hc]; exact ih
    · rw [if_neg hc]
      simp only [List.map_cons, List.nodup_cons]
      refine ⟨?_, ih⟩
      intro hmem
      rcases List.mem_map.mp hmem with ⟨x, hx, hxe⟩
      exact hc (List.any_eq_true.mpr ⟨x, mem_uniqueByHashKeepLast hx, by simp [hxe]⟩)

theorem uniqueByHashKeepLast_eq_self (l : List TagEntry)
    (h : (l.map (fun x => x.hash)).Nodup) : uniqueByHashKeepLast l = l := by
  induction l with
  | nil => rfl
  | cons e rest ih =>
    simp only [List.map_cons, List.nodup_cons] at h
    have hc : rest.any (fun x => x.hash == e.hash) = false := by
      rw [List.any_eq_false]
      intro x hx
      simp only [beq_eq_false_iff_ne, ne_eq, beq_iff_eq]
      intro hxe
      exact h.1 (List.mem_map.mpr ⟨x, hx, hxe⟩)
    unfold uniqueByHashKeepLast
    rw [hc]
    simp [ih h.2]

theorem sortTagEntries_perm (l : List TagEntry) : List.Perm (sortTagEntries l) l :=
  List.perm_insertionSort tagEntryLe l

theorem sortTagEntries_sorted (l : List TagEntry) :
    List.Sorted tagEntryLe (sortTagEntries l) :=
  List.sorted_insertionSort tagEntryLe l

theorem sortTagEntries_eq_of_perm {l1 l2 : List TagEntry} (h : List.Perm l1 l2) :
    sortTagEntries l1 = sortTagEntries l2 :=
  List.eq_of_perm_of_sorted ((sortTagEntries_perm l1).trans (h.trans (sortTagEntries_perm l2).symm))
    (sortTagEntries_sorted l1) (sortTagEntries_sorted l2)

theorem upsertTag_core (T : List TagEntry) (e : TagEntry) :
    upsertTag T e
      = sortTagEntries (uniqueByHashKeepLast (T.filter (fun x => x.hash != e.hash)) ++ [e]) := by
  unfold upsertTag
  rw [uniqueByHashKeepLast_append_singleton]

/-- C3: Tag Store upsert is idempotent and last-write-wins: upserting the
same entry twice equals upserting it once; the result holds exactly the new
entry for its hash (any previous tag/subtag pair for a hash already present
in the table is fully replaced); and the result is sorted by
(tag, subtag, hash). -/
theorem c3_upsert_idempotent_last_write_wins (T : List TagEntry) (e : TagEntry) :
    upsertTag (upsertTag T e) e = upsertTag T e
    ∧ ((∃ e2 ∈ T, e2.hash = e.hash) →
        (upsertTag T e).filter (fun x => x.hash == e.hash) = [e])
    ∧ List.Sorted tagEntryLe (upsertTag T e) := by
  have hfilter : ∀ l : List TagEntry,
      ((uniqueByHashKeepLast (l.filter (fun x => x.hash != e.hash))).filter
        (fun x => x.hash == e.hash)) = [] := by
    intro l
    rw [List.filter_eq_nil_iff]
    intro x hx
    have hxl := mem_uniqueByHashKeepLast hx
    have hprop := (List.mem_filter.mp hxl).2
    simp only [bne_iff_ne, ne_eq] at hprop
    simp [hprop]
  have hfilter2 : ∀ l : List TagEntry,
      ((uniqueByHashKeepLast (l.filter (fun x => x.hash != e.hash))).filter
        (fun x => x.hash != e.hash)) = uniqueByHashKeepLast (l.filter (fun x => x.hash != e.hash)) := by
    intro l
    rw [List.filter_eq_self]
    intro x hx
    have hxl := mem_uniqueByHashKeepLast hx
    exact (List.mem_filter.mp hxl).2
  refine ⟨?_, ?_, sortTagEntries_sorted _⟩
  · rw [upsertTag_core T e]
    rw [upsertTag_core (sortTagEntries (uniqueByHashKeepLast (T.filter (fun x => x.hash != e.hash)) ++ [e])) e]
    apply sortTagEntries_eq_of_perm
    apply List.Perm.append_right [e]
    have hperm : List.Perm
        ((sortTagEntries (uniqueByHashKeepLast (T.filter (fun x => x.hash != e.hash)) ++ [e])).filter
          (fun x => x.hash != e.hash))
        (uniqueByHashKeepLast (T.filter (fun x => x.hash != e.hash))) := by
      have h1 := (sortTagEntries_perm (uniqueByHashKeepLast (T.filter (fun x => x.hash != e.hash)) ++ [e])).filter
        (fun x => x.hash != e.hash)
      rw [List.filter_append] at h1
      have h2 : ([e].filter (fun x => x.hash != e.hash)) = [] := by simp
      rw [h2, List.append_nil, hfilter2 T] at h1
      exact h1
    have hnodup : (((sortTagEntries (uniqueByHashKeepLast (T.filter (fun x => x.hash != e.hash)) ++ [e])).filter
        (fun x => x.hash != e.hash)).map (fun x => x.hash)).Nodup := by
      refine (hperm.map (fun x => x.hash)).nodup_iff.mpr ?_
      exact uniqueByHashKeepLast_hash_nodup _
    rw [uniqueByHashKeepLast_eq_self _ hnodup]
    exact hperm
  · intro _
    rw [upsertTag_core T e]
    have h1 := (sortTagEntries_perm (uniqueByHashKeepLast (T.filter (fun x => x.hash != e.hash)) ++ [e])).filter
      (fun x => x.hash == e.hash)
    rw [List.filter_append, hfilter T] at h1
    have h2 : ([e].filter (fun x => x.hash == e.hash)) = [e] := by simp
    rw [h2, List.nil_append] at h1
    exact List.perm_singleton.mp h1

/-- C3 witness: at a concrete table already holding an entry for the hash,
the replacement hypothesis is discharged and both the idempotence and the
last-write-wins consequences are obtained. -/
theorem c3_upsert_idempotent_last_write_wins_witness :
    ((∃ e2 ∈ [(⟨some "Food", some "Coffee", 5⟩ : TagEntry)], e2.hash = (⟨some "Bills", none, 5⟩ : TagEntry).hash)
     ∧ upsertTag (upsertTag [⟨some "Food", some "Coffee", 5⟩] ⟨some "Bills", none, 5⟩) ⟨some "Bills", none, 5⟩
        = upsertTag [⟨some "Food", some "Coffee", 5⟩] ⟨some "Bills", none, 5⟩
     ∧ (upsertTag [⟨some "Food", some "Coffee", 5⟩] ⟨some "Bills", none, 5⟩).filter
        (fun x => x.hash == (⟨some "Bills", none, 5⟩ : TagEntry).hash) = [⟨some "Bills", none, 5⟩]) :=
  ⟨by decide,
   (c3_upsert_idempotent_last_write_wins [⟨some "Food", some "Coffee", 5⟩] ⟨some "Bills", none, 5⟩).1,
   (c3_upsert_idempotent_last_write_wins [⟨some "Food", some "Coffee", 5⟩] ⟨some "Bills", none, 5⟩).2.1
     (by decide)⟩

/-- Preset tagging rule, modelling TagPresetRule (finalyze/config.py) as
consumed by apply_tag_presets (finalyze/source/tag.py).  Before a rule is
used, apply_tag_presets clears its tags/subtags filters, so the remaining
predicate depends only on the raw (non-tag) columns; hasEffect models
Filters.has_effect after that clearing, and rules without effect are
skipped. -/
structure PresetRule where
  tag : String
  subtag : String
  hasEffect : Bool
  pred : RawRow → Bool

/-- Left join of hashed rows against the Tag Store on the hash column
(hashed_data.join(tags, on="hash", how="left") in apply_tags): every left
row is kept, null tag/subtag when no store entry matches, one output row
per matching store entry otherwise. -/
def joinTags (rows : List HashedRow) (store : List TagEntry) : List TaggedRow :=
  rows.flatMap (fun r =>
    match store.filter (fun x => x.hash == r.hash) with
    | [] => [⟨r.raw, none, none, r.hash⟩]
    | es => es.map (fun x => ⟨r.raw, x.tag, x.subtag, r.hash⟩))

/-- Overwrite of the tag columns of a row by a preset rule
(with_columns(pl.lit(preset.tag).alias("tag"), ...)). -/
def retagRow (rule : PresetRule) (r : TaggedRow) : TaggedRow :=
  { r with tag := some rule.tag, subtag := some rule.subtag }

/-- One iteration of the apply_tag_presets loop body: skip the rule when its
filters have no effect; otherwise retag the matching rows, remove every row
whose hash occurs among the matched hashes, and append the retagged rows. -/
def presetStep (data : List TaggedRow) (rule : PresetRule) : List TaggedRow :=
  if rule.hasEffect then
    let filtered := (data.filter (fun r => rule.pred r.raw)).map (retagRow rule)
    (data.filter (fun r => !((filtered.map (fun x => x.hash)).contains r.hash))) ++ filtered
  else data

/-- Model of apply_tag_presets (finalyze/source/tag.py): the loop iterates
over reversed(preset_rules), so the first-listed rule is applied last;
expressed recursively, the head rule's step wraps the application of the
remaining rules. -/
def applyPresets (data : List TaggedRow) : List PresetRule → List TaggedRow
  | [] => data
  | rule :: rest => presetStep (applyPresets data rest) rule

/-- Model of apply_tags (finalyze/source/tag.py): drop any stale
tag/subtag/hash columns (projecting every row to its raw columns), derive
the hash column, left-join the Tag Store on hash, and apply the preset
rules when a rule list is given. -/
def applyTags (store : List TagEntry) (data : List TaggedRow)
    (presetRules : Option (List PresetRule)) : List TaggedRow :=
  let cleaned := data.map (fun r => r.raw)
  let hashed := deriveHash cleaned
  let tagged := joinTags hashed store
  match presetRules with
  | none => tagged
  | some rules => applyPresets tagged rules

theorem store_filter_mem {store : List TagEntry} {e : TagEntry}
    (hnd : (store.map (fun x => x.hash)).Nodup) (he : e ∈ store) :
    store.filter (fun x => x.hash == e.hash) = [e] := by
  induction store with
  | nil => exact absurd he (List.not_mem_nil e)
  | cons a rest ih =>
    simp only [List.map_cons, List.nodup_cons] at hnd
    rcases List.mem_cons.mp he with rfl | hmem
    · rw [List.filter_cons]
      simp only [beq_self_eq_true, if_true]
      congr 1
      rw [List.filter_eq_nil_iff]
      intro x hx
      simp only [beq_eq_false_iff_ne, ne_eq, beq_iff_eq]
      intro hxx
      exact hnd.1 (List.mem_map.mpr ⟨x, hx, hxx⟩)
    · rw [List.filter_cons]
      have hne : (a.hash == e.hash) = false := by
        simp only [beq_eq_false_iff_ne, ne_eq]
        intro hae
        exact hnd.1 (List.mem_map.mpr ⟨e, hmem, hae.symm⟩)
      rw [hne]
      simp only [Bool.false_eq_true, if_false]
      exact ih hnd.2 hmem

theorem store_filter_nil_or_single (store : List TagEntry)
    (hnd : (store.map (fun x => x.hash)).Nodup) (n : Nat) :
    store.filter (fun x => x.hash == n) = []
      ∨ ∃ e, store.filter (fun x => x.hash == n) = [e] := by
  cases hfe : store.filter (fun x => x.hash == n) with
  | nil => exact Or.inl rfl
  | cons e l =>
    right
    refine ⟨e, ?_⟩
    have hemem : e ∈ store.filter (fun x => x.hash == n) := by rw [hfe]; exact List.mem_cons_self e l
    have hehash : e.hash = n := by
      have := (List.mem_filter.mp hemem).2
      simpa using this
    have h2 : store.filter (fun x => x.hash == n) = [e] := by
      rw [← hehash]
      exact store_filter_mem hnd (List.mem_filter.mp hemem).1
    rw [hfe] at h2
    exact h2

theorem joinTags_map_raw (raws : List RawRow) (store : List TagEntry)
    (hnd : (store.map (fun x => x.hash)).Nodup) :
    (joinTags (deriveHash raws) store).map (fun r => r.raw) = raws := by
  induction raws with
  | nil => rfl
  | cons ρ rest ih =>
    have hstep : deriveHash (ρ :: rest) = ⟨ρ, fingerprint ρ⟩ :: deriveHash rest := rfl
    rw [hstep]
    unfold joinTags
    rw [List.flatMap_cons, List.map_append]
    have hrest : ((deriveHash rest).flatMap (fun r =>
        match store.filter (fun x => x.hash == r.hash) with
        | [] => [(⟨r.raw, none, none, r.hash⟩ : TaggedRow)]
        | es => es.map (fun x => ⟨r.raw, x.tag, x.subtag, r.hash⟩))).map (fun r => r.raw)
        = rest := by
      unfold joinTags at ih
      exact ih
    rw [hrest]
    rcases store_filter_nil_or_single store hnd (fingerprint ρ) with hf | ⟨e, hf⟩
    · simp only [hf]
      rfl
    · simp only [hf]
      rfl

/-- C10: apply_tags (without preset rules) is idempotent and insensitive to
stale tagging columns: for every Tag Store keyed uniquely by hash, applying
apply_tags twice equals applying it once, and the output depends only on
the raw columns of the input (any pre-existing hash/tag/subtag values are
dropped and re-derived). -/
theorem c10_applyTags_idempotent_stale_insensitive (store : List TagEntry)
    (hnd : (store.map (fun x => x.hash)).Nodup) :
    (∀ d, applyTags store (applyTags store d none) none = applyTags store d none)
    ∧ (∀ d1 d2, d1.map (fun r => r.raw) = d2.map (fun r => r.raw) →
        applyTags store d1 none = applyTags store d2 none) := by
  have hins : ∀ d1 d2 : List TaggedRow, d1.map (fun r => r.raw) = d2.map (fun r => r.raw) →
      applyTags store d1 none = applyTags store d2 none := by
    intro d1 d2 h
    unfold applyTags
    rw [h]
  refine ⟨?_, hins⟩
  intro d
  apply hins
  show (applyTags store d none).map (fun r => r.raw) = d.map (fun r => r.raw)
  unfold applyTags
  exact joinTags_map_raw (d.map (fun r => r.raw)) store hnd

/-- C10 witness: with a concrete uniquely-keyed store and a concrete input
carrying stale tag and hash values, repeated application equals single
application. -/
theorem c10_applyTags_idempotent_stale_insensitive_witness :
    (((([(⟨some "Food", none, 3⟩ : TagEntry)]).map (fun x => x.hash)).Nodup)
     ∧ applyTags [⟨some "Food", none, 3⟩]
        (applyTags [⟨some "Food", none, 3⟩]
          [⟨⟨"chk", "debit", ⟨2024, 1, 5⟩, 1, "Coffee"⟩, some "stale", some "stale", 42⟩] none) none
        = applyTags [⟨some "Food", none, 3⟩]
          [⟨⟨"chk", "debit", ⟨2024, 1, 5⟩, 1, "Coffee"⟩, some "stale", some "stale", 42⟩] none) :=
  ⟨by decide,
   (c10_applyTags_idempotent_stale_insensitive [⟨some "Food", none, 3⟩] (by decide)).1
     [⟨⟨"chk", "debit", ⟨2024, 1, 5⟩, 1, "Coffee"⟩, some "stale", some "stale", 42⟩]⟩

/-- Model of _validate_tags (finalyze/analysis/analyze.py): collect the rows
with a null tag; when any exist the run terminates with failure (the rows
are printed and the process exits with status 1), modelled by an error
value carrying the offending rows. -/
def validateTags (df : List TaggedRow) : Except (List TaggedRow) Unit :=
  let nullTags := df.filter (fun r => r.tag == none)
  if nullTags.length ≠ 0 then Except.error nullTags else Except.ok ()

/-- Model of the strict-mode gate in run (finalyze/analysis/analyze.py):
_validate_tags runs exactly when allow_untagged is false. -/
def runUntaggedCheck (allowUntagged : Bool) (df : List TaggedRow) :
    Except (List TaggedRow) Unit :=
  if allowUntagged then Except.ok () else validateTags df

/-- C5: with allow_untagged false the analysis run fails if and only if some
row has a null tag, and on failure the reported rows are exactly the
offending ones, so identifying information of every offending row (not just
the first) is included; with every row tagged the check never fails. -/
theorem c5_strict_untagged_check (df : List TaggedRow) :
    (runUntaggedCheck false df = Except.ok () ↔ ∀ r ∈ df, r.tag ≠ none)
    ∧ (∀ e, runUntaggedCheck false df = Except.error e →
        (∀ r ∈ df, r.tag = none → r ∈ e) ∧ (∀ r ∈ e, r ∈ df ∧ r.tag = none)) := by
  have hrun : runUntaggedCheck false df = validateTags df := rfl
  cases hfe : df.filter (fun r => r.tag == none) with
  | nil =>
    have hok : validateTags df = Except.ok () := by
      unfold validateTags
      rw [hfe]
      rfl
    constructor
    · rw [hrun, hok]
      simp only [true_iff]
      intro r hr hnone
      have : r ∈ df.filter (fun r => r.tag == none) :=
        List.mem_filter.mpr ⟨hr, by simp [hnone]⟩
      rw [hfe] at this
      exact absurd this (List.not_mem_nil r)
    · intro e herr
      rw [hrun, hok] at herr
      exact absurd herr (by simp)
  | cons a l =>
    have herr : validateTags df = Except.error (a :: l) := by
      unfold validateTags
      rw [hfe]
      rfl
    constructor
    · rw [hrun, herr]
      constructor
      · intro h
        exact absurd h (by simp)
      · intro h
        have hamem : a ∈ df.filter (fun r => r.tag == none) := by
          rw [hfe]; exact List.mem_cons_self a l
        have ha := List.mem_filter.mp hamem
        have : a.tag = none := by simpa using ha.2
        exact absurd this (h a ha.1)
    · intro e he
      rw [hrun, herr] at he
      have he2 : (a :: l) = e := by
        injection he
      constructor
      · intro r hr hnone
        rw [← he2, ← hfe]
        exact List.mem_filter.mpr ⟨hr, by simp [hnone]⟩
      · intro r hr
        rw [← he2, ← hfe] at hr
        have := List.mem_filter.mp hr
        exact ⟨this.1, by simpa using this.2⟩

/-- C5 witness: at a concrete table with one untagged row, the failure
equivalence and the completeness of the reported rows are obtained. -/
theorem c5_strict_untagged_check_witness :
    (runUntaggedCheck false
        [(⟨⟨"chk", "debit", ⟨2024, 1, 5⟩, 1, "Coffee"⟩, none, none, 0⟩ : TaggedRow)]
        = Except.ok ()
      ↔ ∀ r ∈ [(⟨⟨"chk", "debit", ⟨2024, 1, 5⟩, 1, "Coffee"⟩, none, none, 0⟩ : TaggedRow)],
          r.tag ≠ none) :=
  (c5_strict_untagged_check
    [⟨⟨"chk", "debit", ⟨2024, 1, 5⟩, 1, "Coffee"⟩, none, none, 0⟩]).1

/-- Rows of a table carrying a given hash value. -/
def rowsWithHash (h : Nat) (data : List TaggedRow) : List TaggedRow :=
  data.filter (fun r => r.hash == h)

theorem mem_rowsWithHash {h : Nat} {data : List TaggedRow} {row : TaggedRow} :
    row ∈ rowsWithHash h data ↔ row ∈ data ∧ row.hash = h := by
  unfold rowsWithHash
  rw [List.mem_filter]
  simp

theorem presetStep_sub {row : TaggedRow} {data : List TaggedRow} {rule : PresetRule}
    (h : row ∈ presetStep data rule) :
    ∃ row2 ∈ data, row.raw = row2.raw ∧ row.hash = row2.hash := by
  unfold presetStep at h
  by_cases he : rule.hasEffect
  · rw [if_pos he] at h
    simp only at h
    rcases List.mem_append.mp h with h1 | h1
    · exact ⟨row, (List.mem_filter.mp h1).1, rfl, rfl⟩
    · rcases List.mem_map.mp h1 with ⟨r2, hr2, hrr⟩
      refine ⟨r2, (List.mem_filter.mp hr2).1, ?_, ?_⟩
      · rw [← hrr]; rfl
      · rw [← hrr]; rfl
  · rw [if_neg he] at h
    exact ⟨row, h, rfl, rfl⟩

theorem applyPresets_sub {data : List TaggedRow} :
    ∀ (rules : List PresetRule) (row : TaggedRow), row ∈ applyPresets data rules →
      ∃ row2 ∈ data, row.raw = row2.raw ∧ row.hash = row2.hash := by
  intro rules
  induction rules with
  | nil => exact fun row h => ⟨row, h, rfl, rfl⟩
  | cons rule rest ih =>
    intro row h
    rcases presetStep_sub h with ⟨rowm, hrowm, hraw, hhash⟩
    rcases ih rowm hrowm with ⟨row2, hrow2, hraw2, hhash2⟩
    exact ⟨row2, hrow2, hraw.trans hraw2, hhash.trans hhash2⟩

theorem contains_hash_iff (l : List TaggedRow) (n : Nat) :
    ((l.map (fun x => x.hash)).contains n) = true ↔ ∃ x ∈ l, x.hash = n := by
  constructor
  · intro h
    have hmem : n ∈ l.map (fun x => x.hash) := by
      rw [← List.elem_iff]
      simpa [List.contains] using h
    rcases List.mem_map.mp hmem with ⟨x, hx, hxn⟩
    exact ⟨x, hx, hxn⟩
  · rintro ⟨x, hx, hxn⟩
    have hmem : n ∈ l.map (fun x => x.hash) := List.mem_map.mpr ⟨x, hx, hxn⟩
    rw [← List.elem_iff] at hmem
    simpa [List.contains] using hmem

theorem presetStep_frame (data : List TaggedRow) (rule : PresetRule) (h : Nat)
    (hno : ∀ row ∈ data, row.hash = h → rule.hasEffect = true → rule.pred row.raw = false) :
    rowsWithHash h (presetStep data rule) = rowsWithHash h data := by
  by_cases he : rule.hasEffect
  · have hnomatch : ∀ x ∈ (data.filter (fun r => rule.pred r.raw)).map (retagRow rule),
        ¬ x.hash = h := by
      intro x hx hxh
      rcases List.mem_map.mp hx with ⟨r2, hr2, hrr⟩
      have hp := (List.mem_filter.mp hr2).2
      have hr2h : r2.hash = h := by rw [← hxh, ← hrr]; rfl
      have hfalse := hno r2 (List.mem_filter.mp hr2).1 hr2h he
      simp only [hfalse] at hp
      exact absurd hp (by simp)
    unfold presetStep
    rw [if_pos he]
    simp only
    unfold rowsWithHash
    rw [List.filter_append]
    have h2 : ((data.filter (fun r => rule.pred r.raw)).map (retagRow rule)).filter
        (fun r => r.hash == h) = [] := by
      rw [List.filter_eq_nil_iff]
      intro x hx
      simp only [beq_eq_false_iff_ne, ne_eq, beq_iff_eq]
      exact hnomatch x hx
    rw [h2, List.append_nil]
    rw [List.filter_filter]
    apply List.filter_congr
    intro r hr
    by_cases hh : r.hash = h
    · have hbeq : (r.hash == h) = true := by simp [hh]
      have hcont : (((data.filter (fun r => rule.pred r.raw)).map (retagRow rule)).map
          (fun x => x.hash)).contains r.hash = false := by
        rw [Bool.eq_false_iff]
        intro hcontains
        rcases (contains_hash_iff _ _).mp hcontains with ⟨x, hx, hxn⟩
        exact hnomatch x hx (hxn.trans hh)
      rw [hbeq, hcont]
      rfl
    · have hbeq : (r.hash == h) = false := by simp [hh]
      rw [hbeq]
      rfl
  · unfold presetStep
    rw [if_neg he]

theorem presetStep_retag (data : List TaggedRow) (rule : PresetRule) (h : Nat)
    (he : rule.hasEffect = true)
    (hall : ∀ row ∈ data, row.hash = h → rule.pred row.raw = true) :
    rowsWithHash h (presetStep data rule) = (rowsWithHash h data).map (retagRow rule) := by
  unfold presetStep
  rw [if_pos he]
  simp only
  unfold rowsWithHash
  rw [List.filter_append]
  have h1 : (data.filter (fun r =>
      !(((data.filter (fun r => rule.pred r.raw)).map (retagRow rule)).map
        (fun x => x.hash)).contains r.hash)).filter (fun r => r.hash == h) = [] := by
    rw [List.filter_eq_nil_iff]
    intro r hr
    simp only [beq_eq_false_iff_ne, ne_eq, beq_iff_eq]
    intro hh
    have hmem := List.mem_filter.mp hr
    have hpred : rule.pred r.raw = true := hall r hmem.1 hh
    have hcont : (((data.filter (fun r => rule.pred r.raw)).map (retagRow rule)).map
        (fun x => x.hash)).contains r.hash = true := by
      apply (contains_hash_iff _ _).mpr
      refine ⟨retagRow rule r, List.mem_map.mpr ⟨r, List.mem_filter.mpr ⟨hmem.1, by simp [hpred]⟩, rfl⟩, rfl⟩
    rw [hcont] at hmem
    exact absurd hmem.2 (by simp)
  rw [h1, List.nil_append]
  have h2 : ((data.filter (fun r => rule.pred r.raw)).map (retagRow rule)).filter
      (fun r => r.hash == h)
      = ((data.filter (fun r => rule.pred r.raw)).filter (fun r => r.hash == h)).map
        (retagRow rule) := by
    rw [List.filter_map]
    rfl
  rw [h2, List.filter_filter]
  congr 1
  apply List.filter_congr
  intro r hr
  by_cases hh : r.hash = h
  · have hbeq : (r.hash == h) = true := by simp [hh]
    rw [hbeq, hall r hr hh]
    rfl
  · have hbeq : (r.hash == h) = false := by simp [hh]
    rw [hbeq]
    rfl

theorem applyPresets_frame (data : List TaggedRow) (rules : List PresetRule) (h : Nat)
    (hno : ∀ rule ∈ rules, ∀ row ∈ data, row.hash = h →
        rule.hasEffect = true → rule.pred row.raw = false) :
    rowsWithHash h (applyPresets data rules) = rowsWithHash h data := by
  induction rules with
  | nil => rfl
  | cons rule rest ih =>
    show rowsWithHash h (presetStep (applyPresets data rest) rule) = rowsWithHash h data
    rw [presetStep_frame]
    · exact ih (fun rule2 hrule2 => hno rule2 (List.mem_cons_of_mem rule hrule2))
    · intro row hrow hh heff
      rcases applyPresets_sub rest row hrow with ⟨row2, hrow2, hraw, hhash⟩
      rw [hraw]
      exact hno rule (List.mem_cons_self rule rest) row2 hrow2 (hhash ▸ hh) heff

theorem applyPresets_det (data : List TaggedRow) (rules : List PresetRule) (h : Nat)
    (ρ : RawRow) (hdet : ∀ row ∈ data, row.hash = h → row.raw = ρ) :
    ∀ row ∈ applyPresets data rules, row.hash = h → row.raw = ρ := by
  intro row hrow hh
  rcases applyPresets_sub rules row hrow with ⟨row2, hrow2, hraw, hhash⟩
  rw [hraw]
  exact hdet row2 hrow2 (hhash ▸ hh)

theorem applyPresets_rowsWithHash_length (data : List TaggedRow) (rules : List PresetRule)
    (h : Nat) (ρ : RawRow) (hdet : ∀ row ∈ data, row.hash = h → row.raw = ρ) :
    (rowsWithHash h (applyPresets data rules)).length = (rowsWithHash h data).length := by
  induction rules with
  | nil => rfl
  | cons rule rest ih =>
    show (rowsWithHash h (presetStep (applyPresets data rest) rule)).length
        = (rowsWithHash h data).length
    have hdetD := applyPresets_det data rest h ρ hdet
    by_cases he : rule.hasEffect
    · by_cases hp : rule.pred ρ = true
      · rw [presetStep_retag _ _ _ he]
        · rw [List.length_map]
          exact ih
        · intro row hrow hh
          rw [hdetD row hrow hh]
          exact hp
      · rw [presetStep_frame]
        · exact ih
        · intro row hrow hh _
          rw [hdetD row hrow hh]
          cases hb : rule.pred ρ
          · rfl
          · exact absurd hb hp
    · unfold presetStep
      rw [if_neg he]
      exact ih

theorem map_retag_const (l : List TaggedRow) (rule : PresetRule) (h : Nat) (ρ : RawRow)
    (hl : ∀ row ∈ l, row.raw = ρ ∧ row.hash = h) :
    l.map (retagRow rule)
      = List.replicate l.length ⟨ρ, some rule.tag, some rule.subtag, h⟩ := by
  induction l with
  | nil => rfl
  | cons a l ih =>
    have ha := hl a (List.mem_cons_self a l)
    rw [List.map_cons, List.length_cons, List.replicate_succ]
    congr 1
    · obtain ⟨araw, atag, asub, ahash⟩ := a
      simp only at ha
      unfold retagRow
      simp [ha.1, ha.2]
    · exact ih (fun row hrow => hl row (List.mem_cons_of_mem a hrow))

theorem applyPresets_first_match_aux (data : List TaggedRow) (rules : List PresetRule)
    (h : Nat) (ρ : RawRow) (r0 : PresetRule)
    (hdet : ∀ row ∈ data, row.hash = h → row.raw = ρ)
    (hfirst : (rules.filter (fun rule => rule.hasEffect && rule.pred ρ)).head? = some r0) :
    rowsWithHash h (applyPresets data rules)
      = List.replicate (rowsWithHash h data).length ⟨ρ, some r0.tag, some r0.subtag, h⟩ := by
  induction rules with
  | nil => exact absurd hfirst (by simp)
  | cons rule rest ih =>
    have hdetD := applyPresets_det data rest h ρ hdet
    by_cases hm : (rule.hasEffect && rule.pred ρ) = true
    · have hr0 : rule = r0 := by
        rw [List.filter_cons, if_pos hm] at hfirst
        simpa using hfirst
      have hm2 : rule.hasEffect = true ∧ rule.pred ρ = true := by
        rw [Bool.and_eq_true] at hm
        exact hm
      show rowsWithHash h (presetStep (applyPresets data rest) rule) = _
      rw [presetStep_retag _ _ _ hm2.1]
      · rw [map_retag_const _ rule h ρ]
        · rw [applyPresets_rowsWithHash_length data rest h ρ hdet, hr0]
        · intro row hrow
          rcases mem_rowsWithHash.mp hrow with ⟨hmem, hh⟩
          exact ⟨hdetD row hmem hh, hh⟩
      · intro row hrow hh
        rw [hdetD row hrow hh]
        exact hm2.2
    · have hfirst2 : (rest.filter (fun rule => rule.hasEffect && rule.pred ρ)).head?
          = some r0 := by
        rw [List.filter_cons, if_neg hm] at hfirst
        exact hfirst
      show rowsWithHash h (presetStep (applyPresets data rest) rule) = _
      by_cases he : rule.hasEffect
      · have hp : rule.pred ρ = false := by
          cases hb : rule.pred ρ
          · rfl
          · exact absurd (by rw [Bool.and_eq_true]; exact ⟨he, hb⟩) hm
        rw [presetStep_frame]
        · exact ih hfirst2
        · intro row hrow hh _
          rw [hdetD row hrow hh]
          exact hp
      · unfold presetStep
        rw [if_neg he]
        exact ih hfirst2

/-- C6: preset-rule precedence is first-listed-wins: for every transaction
matched by the predicates of two or more effective preset rules, the
(tag, subtag) pair assigned by apply_tag_presets is that of the first-listed
matching rule (the loop runs over the rule list in reverse, so the
earlier-listed rule overwrites the later-listed ones). -/
theorem c6_first_listed_preset_rule_wins (data : List TaggedRow) (rules : List PresetRule)
    (r : TaggedRow) (r0 r1 : PresetRule) (others : List PresetRule)
    (hr : r ∈ data)
    (hdet : ∀ row ∈ data, row.hash = r.hash → row.raw = r.raw)
    (hmatches : rules.filter (fun rule => rule.hasEffect && rule.pred r.raw)
        = r0 :: r1 :: others) :
    (∃ row ∈ applyPresets data rules, row.hash = r.hash)
    ∧ ∀ row ∈ applyPresets data rules, row.hash = r.hash →
        row.tag = some r0.tag ∧ row.subtag = some r0.subtag := by
  have haux := applyPresets_first_match_aux data rules r.hash r.raw r0 hdet
    (by rw [hmatches]; rfl)
  have hrmem : r ∈ rowsWithHash r.hash data := mem_rowsWithHash.mpr ⟨hr, rfl⟩
  have hlen : (rowsWithHash r.hash data).length ≠ 0 := by
    intro h0
    rw [List.length_eq_zero] at h0
    rw [h0] at hrmem
    exact absurd hrmem (List.not_mem_nil r)
  constructor
  · have hmem : (⟨r.raw, some r0.tag, some r0.subtag, r.hash⟩ : TaggedRow)
        ∈ rowsWithHash r.hash (applyPresets data rules) := by
      rw [haux]
      exact List.mem_replicate.mpr ⟨hlen, rfl⟩
    rcases mem_rowsWithHash.mp hmem with ⟨hmem2, hh⟩
    exact ⟨_, hmem2, hh⟩
  · intro row hrow hh
    have hmem : row ∈ rowsWithHash r.hash (applyPresets data rules) :=
      mem_rowsWithHash.mpr ⟨hrow, hh⟩
    rw [haux] at hmem
    rw [(List.mem_replicate.mp hmem).2]
    exact ⟨rfl, rfl⟩

/-- C6 witness: with two concrete always-matching effective rules, the
hypotheses are discharged and the transaction receives the first-listed
rule's tags. -/
theorem c6_first_listed_preset_rule_wins_witness :
    ((∃ row ∈ applyPresets
        [(⟨⟨"chk", "debit", ⟨2024, 1, 5⟩, 1, "Coffee"⟩, none, none, 9⟩ : TaggedRow)]
        [⟨"First", "F", true, fun _ => true⟩, ⟨"Second", "S", true, fun _ => true⟩],
        row.hash = 9)
     ∧ ∀ row ∈ applyPresets
        [(⟨⟨"chk", "debit", ⟨2024, 1, 5⟩, 1, "Coffee"⟩, none, none, 9⟩ : TaggedRow)]
        [⟨"First", "F", true, fun _ => true⟩, ⟨"Second", "S", true, fun _ => true⟩],
        row.hash = 9 → row.tag = some "First" ∧ row.subtag = some "F") := by
  have hc := c6_first_listed_preset_rule_wins
    [(⟨⟨"chk", "debit", ⟨2024, 1, 5⟩, 1, "Coffee"⟩, none, none, 9⟩ : TaggedRow)]
    [⟨"First", "F", true, fun _ => true⟩, ⟨"Second", "S", true, fun _ => true⟩]
    ⟨⟨"chk", "debit", ⟨2024, 1, 5⟩, 1, "Coffee"⟩, none, none, 9⟩
    ⟨"First", "F", true, fun _ => true⟩ ⟨"Second", "S", true, fun _ => true⟩ []
    (by decide) (by decide) rfl
  exact hc

theorem joinTags_mem_shape {raws : List RawRow} {store : List TagEntry} {row : TaggedRow}
    (h : row ∈ joinTags (deriveHash raws) store) :
    row.raw ∈ raws ∧ row.hash = fingerprint row.raw := by
  unfold joinTags at h
  rcases List.mem_flatMap.mp h with ⟨hr, hhr, hrow⟩
  rcases List.mem_map.mp hhr with ⟨ρ, hρ, hr2⟩
  cases hfe : store.filter (fun x => x.hash == hr.hash) with
  | nil =>
    rw [hfe] at hrow
    have : row = ⟨hr.raw, none, none, hr.hash⟩ := by simpa using hrow
    rw [this, ← hr2]
    exact ⟨hρ, rfl⟩
  | cons x l =>
    rw [hfe] at hrow
    rcases List.mem_map.mp hrow with ⟨x2, hx2, hrr⟩
    rw [← hrr, ← hr2]
    exact ⟨hρ, rfl⟩

theorem joinTags_entry_tags {raws : List RawRow} {store : List TagEntry} {e : TagEntry}
    (hnd : (store.map (fun x => x.hash)).Nodup) (he : e ∈ store) :
    ∀ row ∈ joinTags (deriveHash raws) store, row.hash = e.hash →
      row.tag = e.tag ∧ row.subtag = e.subtag := by
  intro row hrow hh
  unfold joinTags at hrow
  rcases List.mem_flatMap.mp hrow with ⟨hr, hhr, hrowf⟩
  cases hfe : store.filter (fun x => x.hash == hr.hash) with
  | nil =>
    rw [hfe] at hrowf
    have hreq : row = ⟨hr.raw, none, none, hr.hash⟩ := by simpa using hrowf
    have hrh : hr.hash = e.hash := by rw [← hh, hreq]
    have : e ∈ store.filter (fun x => x.hash == hr.hash) :=
      List.mem_filter.mpr ⟨he, by simp [hrh]⟩
    rw [hfe] at this
    exact absurd this (List.not_mem_nil e)
  | cons x l =>
    rw [hfe] at hrowf
    rcases List.mem_map.mp hrowf with ⟨x2, hx2, hrr⟩
    have hrh : hr.hash = e.hash := by rw [← hh, ← hrr]
    have hfe2 : store.filter (fun x => x.hash == hr.hash) = [e] := by
      rw [hrh]
      exact store_filter_mem hnd he
    rw [hfe] at hfe2
    have hx2e : x2 = e := by
      rcases List.mem_cons.mp (hfe2 ▸ hx2) with h1 | h1
      · exact h1
      · exact absurd h1 (List.not_mem_nil x2)
    rw [← hrr, hx2e]
    exact ⟨rfl, rfl⟩

theorem joinTags_exists {raws : List RawRow} (store : List TagEntry) (ρ : RawRow)
    (hρ : ρ ∈ raws) :
    ∃ row ∈ joinTags (deriveHash raws) store, row.hash = fingerprint ρ := by
  have hmem : (⟨ρ, fingerprint ρ⟩ : HashedRow) ∈ deriveHash raws :=
    List.mem_map.mpr ⟨ρ, hρ, rfl⟩
  cases hfe : store.filter (fun x => x.hash == fingerprint ρ) with
  | nil =>
    refine ⟨⟨ρ, none, none, fingerprint ρ⟩, ?_, rfl⟩
    unfold joinTags
    apply List.mem_flatMap.mpr
    refine ⟨⟨ρ, fingerprint ρ⟩, hmem, ?_⟩
    simp only [hfe]
    exact List.mem_singleton.mpr rfl
  | cons x l =>
    refine ⟨⟨ρ, x.tag, x.subtag, fingerprint ρ⟩, ?_, rfl⟩
    unfold joinTags
    apply List.mem_flatMap.mpr
    refine ⟨⟨ρ, fingerprint ρ⟩, hmem, ?_⟩
    simp only [hfe]
    exact List.mem_cons_self _ _

/-- C7 counterexample: the claim that preset rules leave Tag-Store-tagged
transactions untouched is false: at a concrete transaction whose hash has a
store entry ("stored", "sub") and which matches an effective preset rule
("Preset", "P"), apply_tags returns the preset's pair, not the stored one.
The first conjunct shows the left join alone would have produced the stored
pair; the preset pass overwrites it. -/
theorem c7_counterexample :
    (let ρ : RawRow := ⟨"chk", "debit", ⟨2024, 1, 5⟩, 1, "Coffee"⟩
     let store : List TagEntry := [⟨some "stored", some "sub", fingerprint ρ⟩]
     let rule : PresetRule := ⟨"Preset", "P", true, fun r => r.description == "Coffee"⟩
     joinTags (deriveHash [ρ]) store
        = [⟨ρ, some "stored", some "sub", fingerprint ρ⟩]
     ∧ (applyTags store [⟨ρ, none, none, 0⟩] (some [rule])).map (fun r => r.tag)
        = [some "Preset"]
     ∧ (applyTags store [⟨ρ, none, none, 0⟩] (some [rule])).map (fun r => r.subtag)
        = [some "P"]
     ∧ (some "Preset" : Option String) ≠ some "stored") := by
  refine ⟨rfl, rfl, rfl, by decide⟩

/-- C7 corrected/amended: preset rules are applied to all joined rows, not
only to still-untagged ones, so a stored Tag Store pair survives apply_tags
exactly when no effective preset rule matches the transaction: if every
effective rule's predicate rejects every row carrying the entry's hash, the
output rows with that hash exist and carry the stored (tag, subtag); a
matching effective rule would instead overwrite the stored pair (see the
counterexample). -/
theorem c7_amended_presets_override_stored_tags (store : List TagEntry)
    (data : List TaggedRow) (rules : List PresetRule) (e : TagEntry) (r : TaggedRow)
    (hnd : (store.map (fun x => x.hash)).Nodup)
    (he : e ∈ store)
    (hr : r ∈ data)
    (hhash : fingerprint r.raw = e.hash)
    (hnomatch : ∀ r2 ∈ data, fingerprint r2.raw = e.hash →
        ∀ rule ∈ rules, rule.hasEffect = true → rule.pred r2.raw = false) :
    (∃ row ∈ applyTags store data (some rules), row.hash = e.hash)
    ∧ ∀ row ∈ applyTags store data (some rules), row.hash = e.hash →
        row.tag = e.tag ∧ row.subtag = e.subtag := by
  have hJ : applyTags store data (some rules)
      = applyPresets (joinTags (deriveHash (data.map (fun x => x.raw))) store) rules := rfl
  have hframe : rowsWithHash e.hash
        (applyPresets (joinTags (deriveHash (data.map (fun x => x.raw))) store) rules)
      = rowsWithHash e.hash (joinTags (deriveHash (data.map (fun x => x.raw))) store) := by
    apply applyPresets_frame
    intro rule hrule row hrow hh heff
    have hshape := joinTags_mem_shape hrow
    rcases List.mem_map.mp hshape.1 with ⟨r2, hr2, hr2raw⟩
    have hfp : fingerprint r2.raw = e.hash := by
      rw [hr2raw, ← hshape.2]
      exact hh
    have hpred := hnomatch r2 hr2 hfp rule hrule heff
    rw [hr2raw] at hpred
    exact hpred
  constructor
  · rcases joinTags_exists store r.raw (List.mem_map.mpr ⟨r, hr, rfl⟩) with ⟨row, hrow, hrh⟩
    have hrowW : row ∈ rowsWithHash e.hash
        (joinTags (deriveHash (data.map (fun x => x.raw))) store) :=
      mem_rowsWithHash.mpr ⟨hrow, by rw [hrh, hhash]⟩
    rw [← hframe] at hrowW
    rcases mem_rowsWithHash.mp hrowW with ⟨hmem, hh⟩
    exact ⟨row, by rw [hJ]; exact hmem, hh⟩
  · intro row hrow hh
    rw [hJ] at hrow
    have hmem : row ∈ rowsWithHash e.hash
        (applyPresets (joinTags (deriveHash (data.map (fun x => x.raw))) store) rules) :=
      mem_rowsWithHash.mpr ⟨hrow, hh⟩
    rw [hframe] at hmem
    rcases mem_rowsWithHash.mp hmem with ⟨hmemJ, hhJ⟩
    exact joinTags_entry_tags hnd he row hmemJ hhJ

/-- C7 amended witness: with a concrete store entry and a single effective
rule whose predicate rejects everything, the hypotheses are discharged and
the stored pair survives. -/
theorem c7_amended_presets_override_stored_tags_witness :
    ((∃ row ∈ applyTags
        [(⟨some "stored", some "sub",
            fingerprint ⟨"chk", "debit", ⟨2024, 1, 5⟩, 1, "Coffee"⟩⟩ : TagEntry)]
        [⟨⟨"chk", "debit", ⟨2024, 1, 5⟩, 1, "Coffee"⟩, none, none, 0⟩]
        (some [⟨"X", "Y", true, fun _ => false⟩]),
        row.hash = fingerprint ⟨"chk", "debit", ⟨2024, 1, 5⟩, 1, "Coffee"⟩)
     ∧ ∀ row ∈ applyTags
        [(⟨some "stored", some "sub",
            fingerprint ⟨"chk", "debit", ⟨2024, 1, 5⟩, 1, "Coffee"⟩⟩ : TagEntry)]
        [⟨⟨"chk", "debit", ⟨2024, 1, 5⟩, 1, "Coffee"⟩, none, none, 0⟩]
        (some [⟨"X", "Y", true, fun _ => false⟩]),
        row.hash = fingerprint ⟨"chk", "debit", ⟨2024, 1, 5⟩, 1, "Coffee"⟩ →
          row.tag = some "stored" ∧ row.subtag = some "sub") :=
  c7_amended_presets_override_stored_tags
    [⟨some "stored", some "sub", fingerprint ⟨"chk", "debit", ⟨2024, 1, 5⟩, 1, "Coffee"⟩⟩]
    [⟨⟨"chk", "debit", ⟨2024, 1, 5⟩, 1, "Coffee"⟩, none, none, 0⟩]
    [⟨"X", "Y", true, fun _ => false⟩]
    ⟨some "stored", some "sub", fingerprint ⟨"chk", "debit", ⟨2024, 1, 5⟩, 1, "Coffee"⟩⟩
    ⟨⟨"chk", "debit", ⟨2024, 1, 5⟩, 1, "Coffee"⟩, none, none, 0⟩
    (by decide) (by decide) (by decide) rfl
    (fun r2 _ _ rule hrule _ => by
      rcases List.mem_singleton.mp hrule with rfl
      rfl)

/-- Row at the balance-computation stage of get_post_processed_source_data
(finalyze/source/data.py): raw columns, tag columns, hash, and the
is_external flag added just before the cumulative balances (the other flag
columns do not participate in the balance partitions and are omitted). -/
structure EnrichRow where
  account : String
  source : String
  date : PDate
  amount : ℚ
  description : String
  tag : Option String
  subtag : Option String
  hash : Nat
  isExternal : Bool
deriving DecidableEq, Repr

/-- Strict date order (year, then month, then day). -/
def dateLtB (a b : PDate) : Bool :=
  decide (a.year < b.year)
    || (a.year == b.year
        && (decide (a.month < b.month) || (a.month == b.month && decide (a.day < b.day))))

/-- Lexicographic order on rows by the canonical SORT_ORDER key
(date, tag, subtag, amount, description, hash) used by the enrichment
pipeline (finalyze/source/data.py). -/
def enrichLe (a b : EnrichRow) : Bool :=
  dateLtB a.date b.date
    || (a.date == b.date
      && (decide (optStrLt a.tag b.tag)
        || (a.tag == b.tag
          && (decide (optStrLt a.subtag b.subtag)
            || (a.subtag == b.subtag
              && (decide (a.amount < b.amount)
                || (a.amount == b.amount
                  && (decide (a.description < b.description)
                    || (a.description == b.description
                      && decide (a.hash ≤ b.hash))))))))))

instance instDecEnrichLe : DecidableRel (fun a b : EnrichRow => enrichLe a b = true) :=
  fun a b => inferInstanceAs (Decidable (enrichLe a b = true))

/-- Sort of the enrichment pipeline: source.sort(SORT_ORDER) with
SORT_ORDER = (date, tag, subtag, amount, description, hash). -/
def sortEnriched (rows : List EnrichRow) : List EnrichRow :=
  List.insertionSort (fun a b => enrichLe a b = true) rows

/-- Running partitioned sum in encounter order, modelling
pl.col("amount").cum_sum().over(partition): the value at each row is the
previous accumulator for that row's partition key plus the row's amount.
The accumulator function gives the running total per key. -/
def cumSumAux {K : Type} [DecidableEq K] (key : EnrichRow → K) (acc : K → ℚ) :
    List EnrichRow → List ℚ
  | [] => []
  | r :: rest =>
    (acc (key r) + r.amount)
      :: cumSumAux key (fun k => if k = key r then acc (key r) + r.amount else acc k) rest

/-- Partitioned cumulative sum of the amount column starting from zero. -/
def cumSumOver {K : Type} [DecidableEq K] (key : EnrichRow → K) (rows : List EnrichRow) :
    List ℚ :=
  cumSumAux key (fun _ => 0) rows

/-- Column balance_total: cum_sum with no partition. -/
def balanceTotal (rows : List EnrichRow) : List ℚ :=
  cumSumOver (fun _ => ()) rows

/-- Column balance_inexternal: cum_sum over is_external. -/
def balanceInexternal (rows : List EnrichRow) : List ℚ :=
  cumSumOver (fun r => r.isExternal) rows

/-- Column balance_account: cum_sum over account. -/
def balanceAccount (rows : List EnrichRow) : List ℚ :=
  cumSumOver (fun r => r.account) rows

/-- Column balance_source: cum_sum over (account, source). -/
def balanceSource (rows : List EnrichRow) : List ℚ :=
  cumSumOver (fun r => (r.account, r.source)) rows

/-- Rows of one partition, in encounter order. -/
def partitionRows {K : Type} [DecidableEq K] (key : EnrichRow → K) (rows : List EnrichRow)
    (k : K) : List EnrichRow :=
  rows.filter (fun r => decide (key r = k))

/-- Sum of the amount column over one partition. -/
def partitionSum {K : Type} [DecidableEq K] (key : EnrichRow → K) (rows : List EnrichRow)
    (k : K) : ℚ :=
  ((partitionRows key rows k).map (fun r => r.amount)).sum

/-- Value of a balance column at the last row of a partition: zip the rows
with the balance column, keep the rows of the partition, and take the last
balance. -/
def lastBalanceIn (balances : List ℚ) {K : Type} [DecidableEq K] (key : EnrichRow → K)
    (rows : List EnrichRow) (k : K) : Option ℚ :=
  (((rows.zip balances).filter (fun p => decide (key p.1 = k))).map (fun p => p.2)).getLast?

theorem getLast?_cons_ne {α : Type} (a : α) {l : List α} (h : l ≠ []) :
    (a :: l).getLast? = l.getLast? := by
  cases l with
  | nil => exact absurd rfl h
  | cons b l2 => exact List.getLast?_cons_cons

theorem getLast?_none_iff {α : Type} (l : List α) : l.getLast? = none ↔ l = [] := by
  cases l with
  | nil => simp
  | cons a l2 =>
    constructor
    · intro h
      exact absurd h (by simp [List.getLast?_cons])
    · intro h
      exact absurd h (by simp)

theorem cumSumAux_last {K : Type} [DecidableEq K] (key : EnrichRow → K) :
    ∀ (rows : List EnrichRow) (acc : K → ℚ) (k : K),
      (((rows.zip (cumSumAux key acc rows)).filter (fun p => decide (key p.1 = k))).map
        (fun p => p.2)).getLast?
      = if rows.filter (fun r => decide (key r = k)) = [] then none
        else some (acc k
          + ((rows.filter (fun r => decide (key r = k))).map (fun r => r.amount)).sum) := by
  intro rows
  induction rows with
  | nil => intro acc k; simp [cumSumAux]
  | cons r rest ih =>
    intro acc k
    rw [cumSumAux, List.zip_cons_cons]
    by_cases hk : key r = k
    · subst hk
      rw [List.filter_cons_of_pos (by simp), List.filter_cons_of_pos (by simp)]
      rw [if_neg (by simp)]
      rw [List.map_cons]
      set acc2 := fun k2 => if k2 = key r then acc (key r) + r.amount else acc k2 with hacc2
      by_cases hrf : rest.filter (fun r2 => decide (key r2 = key r)) = []
      · have hM := ih acc2 (key r)
        rw [hrf, if_pos rfl] at hM
        have hMnil := (getLast?_none_iff _).mp hM
        rw [hMnil, hrf]
        simp
      · have hM := ih acc2 (key r)
        rw [if_neg hrf] at hM
        have hMne : (List.map (fun p => p.2) (List.filter (fun p => decide (key p.1 = key r))
            (rest.zip (cumSumAux key acc2 rest)))) ≠ [] := by
          intro hnil
          rw [hnil] at hM
          simp at hM
        rw [getLast?_cons_ne _ hMne, hM]
        have hacck : acc2 (key r) = acc (key r) + r.amount := by
          rw [hacc2]
          simp
        rw [hacck]
        simp only [List.map_cons, List.sum_cons]
        congr 1
        ring
    · rw [List.filter_cons_of_neg (by simp [hk]), List.filter_cons_of_neg (by simp [hk])]
      have hM := ih (fun k2 => if k2 = key r then acc (key r) + r.amount else acc k2) k
      have hacck : (if k = key r then acc (key r) + r.amount else acc k) = acc k := by
        rw [if_neg (fun h => hk h.symm)]
      rw [hacck] at hM
      exact hM

theorem lastBalanceIn_cumSum {K : Type} [DecidableEq K] (key : EnrichRow → K)
    (rows : List EnrichRow) (k : K) :
    lastBalanceIn (cumSumOver key rows) key rows k
      = if partitionRows key rows k = [] then none else some (partitionSum key rows k) := by
  unfold lastBalanceIn cumSumOver partitionSum partitionRows
  rw [cumSumAux_last key rows (fun _ => 0) k]
  by_cases h : rows.filter (fun r => decide (key r = k)) = []
  · rw [if_pos h, if_pos h]
  · rw [if_neg h, if_neg h, zero_add]

/-- C4: after the enrichment pipeline sorts by
(date, tag, subtag, amount, description, hash) and computes the four running
balances, the balance value at the last row of every partition equals the
sum of amount over exactly the rows of that partition: the whole table for
balance_total, each is_external class for balance_inexternal, each account
for balance_account, and each (account, source) pair for balance_source. -/
theorem c4_partitioned_cumsum_last_row_equals_partition_sum (rows : List EnrichRow) :
    (∀ k : Unit, lastBalanceIn (balanceTotal (sortEnriched rows)) (fun _ => ())
        (sortEnriched rows) k
      = if partitionRows (fun _ => ()) (sortEnriched rows) k = [] then none
        else some (partitionSum (fun _ => ()) (sortEnriched rows) k))
    ∧ (∀ k : Bool, lastBalanceIn (balanceInexternal (sortEnriched rows))
        (fun r => r.isExternal) (sortEnriched rows) k
      = if partitionRows (fun r => r.isExternal) (sortEnriched rows) k = [] then none
        else some (partitionSum (fun r => r.isExternal) (sortEnriched rows) k))
    ∧ (∀ k : String, lastBalanceIn (balanceAccount (sortEnriched rows))
        (fun r => r.account) (sortEnriched rows) k
      = if partitionRows (fun r => r.account) (sortEnriched rows) k = [] then none
        else some (partitionSum (fun r => r.account) (sortEnriched rows) k))
    ∧ (∀ k : String × String, lastBalanceIn (balanceSource (sortEnriched rows))
        (fun r => (r.account, r.source)) (sortEnriched rows) k
      = if partitionRows (fun r => (r.account, r.source)) (sortEnriched rows) k = [] then none
        else some (partitionSum (fun r => (r.account, r.source)) (sortEnriched rows) k)) :=
  ⟨fun k => lastBalanceIn_cumSum (fun _ => ()) (sortEnriched rows) k,
   fun k => lastBalanceIn_cumSum (fun r => r.isExternal) (sortEnriched rows) k,
   fun k => lastBalanceIn_cumSum (fun r => r.account) (sortEnriched rows) k,
   fun k => lastBalanceIn_cumSum (fun r => (r.account, r.source)) (sortEnriched rows) k⟩

/-- Tag pair as carried by the Tags NamedTuple of finalyze/source/tag.py:
a tag string and an optional subtag. -/
structure Tags where
  tag : String
  subtag : Option String
deriving DecidableEq, Repr

/-- Tag pair of a joined row, when the row is tagged. -/
def tagsOfRow (row : TaggedRow) : Option Tags :=
  row.tag.map (fun t => ⟨t, row.subtag⟩)

instance instDecDateDesc :
    DecidableRel (fun a b : TaggedRow =>
      (dateLtB b.raw.date a.raw.date || (a.raw.date == b.raw.date)) = true) :=
  fun a b => inferInstanceAs (Decidable (_ = true))

/-- Descending-date sort of the tagging view,
self.source.sort("date", descending=True) in Tagger.guess_tags. -/
def sortByDateDesc (rows : List TaggedRow) : List TaggedRow :=
  List.insertionSort
    (fun a b => (dateLtB b.raw.date a.raw.date || (a.raw.date == b.raw.date)) = true) rows

/-- Insertion into the tag_descriptions mapping
(collections.defaultdict(set)): the first entry with the key has the
description added to its set (membership-checked append), a missing key is
appended at the end, matching Python dict insertion order. -/
def addDesc (dict : List (Tags × List String)) (t : Tags) (d : String) :
    List (Tags × List String) :=
  match dict with
  | [] => [(t, [d])]
  | p :: rest =>
    if p.1 = t then (p.1, if p.2.contains d then p.2 else p.2 ++ [d]) :: rest
    else p :: addDesc rest t d

/-- Keys of an association list, in insertion order. -/
def dictKeys (dict : List (Tags × List String)) : List Tags :=
  dict.map (fun p => p.1)

/-- Lookup in the tag_descriptions mapping. -/
def lookupDescs : List (Tags × List String) → Tags → Option (List String)
  | [], _ => none
  | p :: rest, t => if p.1 = t then some p.2 else lookupDescs rest t

/-- Accumulation of the whole scan over the tag_descriptions mapping
(used to characterize the loop of Tagger.guess_tags when no description
matches). -/
def foldTagDescs (dict : List (Tags × List String)) :
    List TaggedRow → List (Tags × List String)
  | [] => dict
  | row :: rest =>
    match row.tag with
    | none => foldTagDescs dict rest
    | some t => foldTagDescs (addDesc dict ⟨t, row.subtag⟩ row.raw.description) rest

/-- Set-insertion of a list of descriptions into an existing set list. -/
def addAll (l : List String) (ds : List String) : List String :=
  ds.foldl (fun acc d => if acc.contains d then acc else acc ++ [d]) l

/-- Merge of an optional existing description set with newly scanned
descriptions (specification-side companion of addDesc folding). -/
def mergeDescs (base : Option (List String)) (ds : List String) : Option (List String) :=
  match base, ds with
  | none, [] => none
  | none, d :: rest => some (addAll [d] rest)
  | some l, ds => some (addAll l ds)

/-- Insertion into the description_counts dict of Tagger.guess_tags
({len(descriptions): tags ...}): a present key has its value replaced in
place, a missing key is appended. -/
def insertCount (dict : List (Nat × Tags)) (k : Nat) (v : Tags) : List (Nat × Tags) :=
  match dict with
  | [] => [(k, v)]
  | p :: rest => if p.1 = k then (p.1, v) :: rest else p :: insertCount rest k v

/-- The description_counts dict comprehension of Tagger.guess_tags: keyed by
the number of distinct descriptions, valued by the tag pair; a later tag
pair with the same count overwrites the earlier one. -/
def buildCounts (tagDescs : List (Tags × List String)) : List (Nat × Tags) :=
  tagDescs.foldl (fun d q => insertCount d q.2.length q.1) []

/-- Model of max(description_counts.keys()). -/
def maxCountKey (dict : List (Nat × Tags)) : Nat :=
  (dict.map (fun p => p.1)).foldl max 0

/-- Model of description_counts[greatest_count]; the default branch is
unreachable for a nonempty mapping (the maximal key is always present). -/
def pluralityPick (tagDescs : List (Tags × List String)) : Tags :=
  match (buildCounts tagDescs).find?
      (fun p => decide (p.1 = maxCountKey (buildCounts tagDescs))) with
  | some p => p.2
  | none => ⟨"unknown", some ""⟩

/-- Fallbacks of Tagger.guess_tags after the scan finds no matching
description: the configured default pair when present, the literal
("unknown", "") when nothing was tagged, else the plurality pick. -/
def afterScan (defaultTags : Option Tags) (tagDescs : List (Tags × List String)) : Tags :=
  match defaultTags with
  | some d => d
  | none =>
    if tagDescs.isEmpty then ⟨"unknown", some ""⟩
    else pluralityPick tagDescs

/-- Scan loop of Tagger.guess_tags over the date-descending rows: untagged
rows are skipped; a tagged row first contributes its description to
tag_descriptions and is returned immediately when its description equals
the target description. -/
def guessScan (defaultTags : Option Tags) (targetDesc : String) :
    List TaggedRow → List (Tags × List String) → Tags
  | [], tagDescs => afterScan defaultTags tagDescs
  | row :: rest, tagDescs =>
    match row.tag with
    | none => guessScan defaultTags targetDesc rest tagDescs
    | some t =>
      if row.raw.description = targetDesc then ⟨t, row.subtag⟩
      else guessScan defaultTags targetDesc rest (addDesc tagDescs ⟨t, row.subtag⟩ row.raw.description)

/-- Model of Tagger.guess_tags (finalyze/source/tag.py): scan the source
rows in descending date order with an empty tag_descriptions mapping. -/
def guessTags (source : List TaggedRow) (defaultTags : Option Tags)
    (targetDesc : String) : Tags :=
  guessScan defaultTags targetDesc (sortByDateDesc source) []

/-- Row selector of the scan's early return: a tagged row whose description
equals the target description. -/
def isTaggedMatch (targetDesc : String) (row : TaggedRow) : Bool :=
  row.tag.isSome && (row.raw.description == targetDesc)

/-- Descriptions of the rows carrying a given tag pair, in row order. -/
def descsOf (rows : List TaggedRow) (t : Tags) : List String :=
  (rows.filter (fun r => decide (tagsOfRow r = some t))).map (fun r => r.raw.description)

/-- Number of distinct descriptions among the rows tagged with a pair. -/
def distinctDescCount (rows : List TaggedRow) (t : Tags) : Nat :=
  (descsOf rows t).toFinset.card

theorem addAll_nil (l : List String) : addAll l [] = l := rfl

theorem addAll_cons (l : List String) (d : String) (ds : List String) :
    addAll l (d :: ds) = addAll (if l.contains d then l else l ++ [d]) ds := rfl

theorem addAll_nodup (ds : List String) :
    ∀ l : List String, l.Nodup → (addAll l ds).Nodup := by
  induction ds with
  | nil => exact fun l h => h
  | cons d ds ih =>
    intro l h
    rw [addAll_cons]
    apply ih
    by_cases hc : l.contains d
    · rw [if_pos hc]
      exact h
    · rw [if_neg hc]
      have hd : d ∉ l := by
        intro hd
        exact hc (List.elem_iff.mpr hd)
      rw [List.nodup_append]
      exact ⟨h, List.nodup_singleton d, by simp [List.Disjoint]; intro a ha hda; rw [hda] at ha; exact hd ha⟩

theorem addAll_toFinset (ds : List String) :
    ∀ l : List String, (addAll l ds).toFinset = l.toFinset ∪ ds.toFinset := by
  induction ds with
  | nil => intro l; simp [addAll_nil]
  | cons d ds ih =>
    intro l
    rw [addAll_cons, ih]
    by_cases hc : l.contains d
    · rw [if_pos hc]
      have hd : d ∈ l := List.elem_iff.mp hc
      ext x
      simp only [Finset.mem_union, List.mem_toFinset, List.toFinset_cons, Finset.mem_insert]
      constructor
      · intro h
        rcases h with h | h
        · exact Or.inl h
        · exact Or.inr (Or.inr h)
      · intro h
        rcases h with h | h | h
        · exact Or.inl h
        · exact Or.inl (h ▸ hd)
        · exact Or.inr h
    · rw [if_neg hc]
      ext x
      simp only [Finset.mem_union, List.mem_toFinset, List.toFinset_cons, Finset.mem_insert,
        List.toFinset_append, List.toFinset_cons, List.toFinset_nil, Finset.mem_union]
      constructor
      · intro h
        rcases h with (h | h) | h
        · exact Or.inl h
        · simp at h
          exact Or.inr (Or.inl h)
        · exact Or.inr (Or.inr h)
      · intro h
        rcases h with h | h | h
        · exact Or.inl (Or.inl h)
        · exact Or.inl (Or.inr (by simp [h]))
        · exact Or.inr h

theorem addAll_ne_nil (ds : List String) :
    ∀ l : List String, l ≠ [] → addAll l ds ≠ [] := by
  induction ds with
  | nil => exact fun l h => h
  | cons d ds ih =>
    intro l h
    rw [addAll_cons]
    apply ih
    by_cases hc : l.contains d
    · rw [if_pos hc]; exact h
    · rw [if_neg hc]
      exact fun hnil => by simp at hnil

theorem lookupDescs_none_iff (dict : List (Tags × List String)) (t : Tags) :
    lookupDescs dict t = none ↔ t ∉ dictKeys dict := by
  induction dict with
  | nil => simp [lookupDescs, dictKeys]
  | cons p rest ih =>
    rw [lookupDescs]
    by_cases hp : p.1 = t
    · rw [if_pos hp]
      simp [dictKeys, hp]
    · rw [if_neg hp]
      rw [ih]
      unfold dictKeys
      simp only [List.map_cons, List.mem_cons]
      constructor
      · intro h hmem
        rcases hmem with h2 | h2
        · exact hp h2.symm
        · exact h h2
      · intro h h2
        exact h (Or.inr h2)

theorem lookupDescs_mem {dict : List (Tags × List String)} {t : Tags} {l : List String}
    (h : lookupDescs dict t = some l) : (t, l) ∈ dict := by
  induction dict with
  | nil => exact absurd h (by simp [lookupDescs])
  | cons p rest ih =>
    rw [lookupDescs] at h
    by_cases hp : p.1 = t
    · rw [if_pos hp] at h
      have hl : p.2 = l := by injection h
      have : (t, l) = p := by
        obtain ⟨p1, p2⟩ := p
        simp only at hp hl
        rw [hp, hl]
      rw [this]
      exact List.mem_cons_self p rest
    · rw [if_neg hp] at h
      exact List.mem_cons_of_mem p (ih h)

theorem mem_lookupDescs {dict : List (Tags × List String)} {t : Tags} {l : List String}
    (hnd : (dictKeys dict).Nodup) (h : (t, l) ∈ dict) : lookupDescs dict t = some l := by
  induction dict with
  | nil => exact absurd h (List.not_mem_nil _)
  | cons p rest ih =>
    unfold dictKeys at hnd
    rw [List.map_cons, List.nodup_cons] at hnd
    rw [lookupDescs]
    rcases List.mem_cons.mp h with h2 | h2
    · rw [← h2]
      simp
    · have hp : ¬ p.1 = t := by
        intro hp
        apply hnd.1
        rw [hp]
        exact List.mem_map.mpr ⟨(t, l), h2, rfl⟩
      rw [if_neg hp]
      exact ih hnd.2 h2

theorem addDesc_lookup_same (dict : List (Tags × List String)) (t : Tags) (d : String) :
    lookupDescs (addDesc dict t d) t
      = some (match lookupDescs dict t with
              | none => [d]
              | some l => if l.contains d then l else l ++ [d]) := by
  induction dict with
  | nil => simp [addDesc, lookupDescs]
  | cons p rest ih =>
    rw [addDesc]
    by_cases hp : p.1 = t
    · rw [if_pos hp, lookupDescs, if_pos hp, lookupDescs, if_pos hp]
    · rw [if_neg hp, lookupDescs, if_neg hp, lookupDescs, if_neg hp]
      exact ih

theorem addDesc_lookup_other (dict : List (Tags × List String)) (t : Tags) (d : String)
    (t2 : Tags) (hne : t2 ≠ t) :
    lookupDescs (addDesc dict t d) t2 = lookupDescs dict t2 := by
  induction dict with
  | nil =>
    simp only [addDesc, lookupDescs]
    rw [if_neg (fun h => hne h.symm)]
  | cons p rest ih =>
    rw [addDesc]
    by_cases hp : p.1 = t
    · rw [if_pos hp, lookupDescs, lookupDescs]
      have hp2 : ¬ p.1 = t2 := fun h => hne (h ▸ hp ▸ rfl)
      rw [if_neg hp2, if_neg hp2]
    · rw [if_neg hp, lookupDescs, lookupDescs]
      by_cases hp2 : p.1 = t2
      · rw [if_pos hp2, if_pos hp2]
      · rw [if_neg hp2, if_neg hp2]
        exact ih

theorem addDesc_keys_mem (dict : List (Tags × List String)) (t : Tags) (d : String) :
    ∀ x ∈ dictKeys (addDesc dict t d), x ∈ dictKeys dict ∨ x = t := by
  induction dict with
  | nil =>
    intro x hx
    simp [addDesc, dictKeys] at hx
    exact Or.inr hx
  | cons p rest ih =>
    intro x hx
    rw [addDesc] at hx
    by_cases hp : p.1 = t
    · rw [if_pos hp] at hx
      unfold dictKeys at hx ⊢
      simp only [List.map_cons, List.mem_cons] at hx ⊢
      exact Or.inl hx
    · rw [if_neg hp] at hx
      unfold dictKeys at hx ⊢
      simp only [List.map_cons, List.mem_cons] at hx ⊢
      rcases hx with hx | hx
      · exact Or.inl (Or.inl hx)
      · rcases ih x hx with h | h
        · exact Or.inl (Or.inr h)
        · exact Or.inr h

theorem addDesc_keys_nodup (dict : List (Tags × List String)) (t : Tags) (d : String)
    (h : (dictKeys dict).Nodup) : (dictKeys (addDesc dict t d)).Nodup := by
  induction dict with
  | nil => simp [addDesc, dictKeys]
  | cons p rest ih =>
    unfold dictKeys at h
    rw [List.map_cons, List.nodup_cons] at h
    rw [addDesc]
    by_cases hp : p.1 = t
    · rw [if_pos hp]
      unfold dictKeys
      rw [List.map_cons, List.nodup_cons]
      exact ⟨h.1, h.2⟩
    · rw [if_neg hp]
      unfold dictKeys
      rw [List.map_cons, List.nodup_cons]
      refine ⟨?_, ih h.2⟩
      intro hmem
      rcases addDesc_keys_mem rest t d p.1 hmem with h2 | h2
      · exact h.1 h2
      · exact hp h2

theorem descsOf_cons_untagged {row : TaggedRow} (rest : List TaggedRow) (t : Tags)
    (htag : row.tag = none) : descsOf (row :: rest) t = descsOf rest t := by
  unfold descsOf
  rw [List.filter_cons_of_neg (by simp [tagsOfRow, htag])]

theorem descsOf_cons_tagged_same {row : TaggedRow} (rest : List TaggedRow) {s : String}
    (htag : row.tag = some s) :
    descsOf (row :: rest) ⟨s, row.subtag⟩
      = row.raw.description :: descsOf rest ⟨s, row.subtag⟩ := by
  unfold descsOf
  rw [List.filter_cons_of_pos (by simp [tagsOfRow, htag]), List.map_cons]

theorem descsOf_cons_tagged_other {row : TaggedRow} (rest : List TaggedRow) {s : String}
    (t : Tags) (htag : row.tag = some s) (hne : t ≠ ⟨s, row.subtag⟩) :
    descsOf (row :: rest) t = descsOf rest t := by
  have hocond : ¬ (tagsOfRow row = some t) := by
    rw [tagsOfRow, htag]
    intro h
    have h2 : ({ tag := s, subtag := row.subtag } : Tags) = t := by
      simpa using h
    exact hne h2.symm
  unfold descsOf
  rw [List.filter_cons_of_neg (by simp [hocond])]

theorem foldTagDescs_lookup (rows : List TaggedRow) :
    ∀ (dict : List (Tags × List String)) (t : Tags),
      lookupDescs (foldTagDescs dict rows) t
        = mergeDescs (lookupDescs dict t) (descsOf rows t) := by
  induction rows with
  | nil =>
    intro dict t
    show lookupDescs dict t = mergeDescs (lookupDescs dict t) (descsOf [] t)
    have hd : descsOf [] t = [] := rfl
    rw [hd]
    cases lookupDescs dict t with
    | none => rfl
    | some l => rfl
  | cons row rest ih =>
    intro dict t
    cases htag : row.tag with
    | none =>
      rw [foldTagDescs, htag, descsOf_cons_untagged rest t htag]
      exact ih dict t
    | some s =>
      rw [foldTagDescs, htag]
      by_cases ht : t = (⟨s, row.subtag⟩ : Tags)
      · subst ht
        rw [descsOf_cons_tagged_same rest htag]
        rw [ih (addDesc dict ⟨s, row.subtag⟩ row.raw.description) ⟨s, row.subtag⟩]
        rw [addDesc_lookup_same]
        cases hb : lookupDescs dict ⟨s, row.subtag⟩ with
        | none =>
          show mergeDescs (some [row.raw.description]) _ = _
          cases hds : descsOf rest ⟨s, row.subtag⟩ with
          | nil => rfl
          | cons d2 ds2 => rfl
        | some l =>
          show some (addAll (if l.contains row.raw.description then l
                else l ++ [row.raw.description]) (descsOf rest ⟨s, row.subtag⟩))
            = some (addAll l (row.raw.description :: descsOf rest ⟨s, row.subtag⟩))
          rw [addAll_cons]
      · rw [descsOf_cons_tagged_other rest t htag ht]
        rw [ih (addDesc dict ⟨s, row.subtag⟩ row.raw.description) t]
        rw [addDesc_lookup_other dict ⟨s, row.subtag⟩ row.raw.description t ht]

theorem foldTagDescs_keys_nodup (rows : List TaggedRow) :
    ∀ dict : List (Tags × List String), (dictKeys dict).Nodup →
      (dictKeys (foldTagDescs dict rows)).Nodup := by
  induction rows with
  | nil => exact fun dict h => h
  | cons row rest ih =>
    intro dict h
    cases htag : row.tag with
    | none =>
      rw [foldTagDescs, htag]
      exact ih dict h
    | some s =>
      rw [foldTagDescs, htag]
      exact ih _ (addDesc_keys_nodup dict _ _ h)

theorem foldTagDescs_entry_shape (rows : List TaggedRow) :
    ∀ p ∈ foldTagDescs [] rows,
      p.2.Nodup ∧ p.2 ≠ [] ∧ p.2.length = distinctDescCount rows p.1 := by
  intro p hp
  obtain ⟨t, l⟩ := p
  have hnd := foldTagDescs_keys_nodup rows [] (by simp [dictKeys])
  have hlk := mem_lookupDescs hnd hp
  have heq := foldTagDescs_lookup rows [] t
  have hbase : lookupDescs ([] : List (Tags × List String)) t = none := rfl
  rw [hlk, hbase] at heq
  cases hds : descsOf rows t with
  | nil =>
    rw [hds] at heq
    exact absurd heq (by simp [mergeDescs])
  | cons d ds =>
    rw [hds] at heq
    have hl : l = addAll [d] ds := by
      have : some l = some (addAll [d] ds) := heq
      injection this
    constructor
    · rw [hl]
      exact addAll_nodup ds [d] (List.nodup_singleton d)
    constructor
    · rw [hl]
      exact addAll_ne_nil ds [d] (by simp)
    · rw [hl]
      have hfin : (addAll [d] ds).toFinset = (d :: ds).toFinset := by
        rw [addAll_toFinset]
        ext x
        simp
      have hcard := List.toFinset_card_of_nodup (addAll_nodup ds [d] (List.nodup_singleton d))
      unfold distinctDescCount
      rw [hds, ← hfin, hcard]

theorem foldTagDescs_keys_iff (rows : List TaggedRow) (t : Tags) :
    t ∈ dictKeys (foldTagDescs [] rows) ↔ descsOf rows t ≠ [] := by
  have heq := foldTagDescs_lookup rows [] t
  have hbase : lookupDescs ([] : List (Tags × List String)) t = none := rfl
  rw [hbase] at heq
  constructor
  · intro hmem hds
    rw [hds] at heq
    have : lookupDescs (foldTagDescs [] rows) t = none := heq
    exact ((lookupDescs_none_iff _ _).mp this) hmem
  · intro hds
    by_contra hmem
    have : lookupDescs (foldTagDescs [] rows) t = none := (lookupDescs_none_iff _ _).mpr hmem
    rw [this] at heq
    cases hd2 : descsOf rows t with
    | nil => exact hds hd2
    | cons d ds =>
      rw [hd2] at heq
      exact absurd heq.symm (by simp [mergeDescs])

theorem insertCount_key_mem (cd : List (Nat × Tags)) (k : Nat) (v : Tags) :
    k ∈ (insertCount cd k v).map (fun p => p.1) := by
  induction cd with
  | nil => simp [insertCount]
  | cons p rest ih =>
    rw [insertCount]
    by_cases hp : p.1 = k
    · rw [if_pos hp]
      simp [hp]
    · rw [if_neg hp]
      simp only [List.map_cons, List.mem_cons]
      exact Or.inr ih

theorem insertCount_keys_super (cd : List (Nat × Tags)) (k : Nat) (v : Tags) :
    ∀ x ∈ cd.map (fun p => p.1), x ∈ (insertCount cd k v).map (fun p => p.1) := by
  induction cd with
  | nil => simp
  | cons p rest ih =>
    intro x hx
    rw [insertCount]
    rcases List.mem_cons.mp hx with hx | hx
    · by_cases hp : p.1 = k
      · rw [if_pos hp]
        simp [hx]
      · rw [if_neg hp]
        simp [hx]
    · by_cases hp : p.1 = k
      · rw [if_pos hp]
        simp only [List.map_cons, List.mem_cons]
        exact Or.inr hx
      · rw [if_neg hp]
        simp only [List.map_cons, List.mem_cons]
        exact Or.inr (ih x hx)

theorem insertCount_entry (cd : List (Nat × Tags)) (k : Nat) (v : Tags) :
    ∀ p ∈ insertCount cd k v, p ∈ cd ∨ p = (k, v) := by
  induction cd with
  | nil =>
    intro p hp
    simp [insertCount] at hp
    exact Or.inr hp
  | cons q rest ih =>
    intro p hp
    rw [insertCount] at hp
    by_cases hq : q.1 = k
    · rw [if_pos hq] at hp
      rcases List.mem_cons.mp hp with hp | hp
      · rw [hp, hq]
        exact Or.inr rfl
      · exact Or.inl (List.mem_cons_of_mem q hp)
    · rw [if_neg hq] at hp
      rcases List.mem_cons.mp hp with hp | hp
      · exact Or.inl (hp ▸ List.mem_cons_self q rest)
      · rcases ih p hp with h | h
        · exact Or.inl (List.mem_cons_of_mem q h)
        · exact Or.inr h

theorem buildCounts_aux_entry (tds : List (Tags × List String)) :
    ∀ (cd : List (Nat × Tags)),
      ∀ p ∈ tds.foldl (fun d q => insertCount d q.2.length q.1) cd,
        p ∈ cd ∨ ∃ q ∈ tds, q.2.length = p.1 ∧ q.1 = p.2 := by
  induction tds with
  | nil => exact fun cd p hp => Or.inl hp
  | cons q tds ih =>
    intro cd p hp
    rw [List.foldl_cons] at hp
    rcases ih (insertCount cd q.2.length q.1) p hp with h | ⟨q2, hq2, hq2l, hq2v⟩
    · rcases insertCount_entry cd q.2.length q.1 p h with h2 | h2
      · exact Or.inl h2
      · refine Or.inr ⟨q, List.mem_cons_self q tds, ?_, ?_⟩
        · rw [h2]
        · rw [h2]
    · exact Or.inr ⟨q2, List.mem_cons_of_mem q hq2, hq2l, hq2v⟩

theorem buildCounts_aux_keys_super (tds : List (Tags × List String)) :
    ∀ (cd : List (Nat × Tags)), ∀ x ∈ cd.map (fun p => p.1),
      x ∈ (tds.foldl (fun d q => insertCount d q.2.length q.1) cd).map (fun p => p.1) := by
  induction tds with
  | nil => exact fun cd x hx => hx
  | cons q tds ih =>
    intro cd x hx
    rw [List.foldl_cons]
    exact ih _ x (insertCount_keys_super cd q.2.length q.1 x hx)

theorem buildCounts_keys (tds : List (Tags × List String)) :
    ∀ q ∈ tds, q.2.length ∈ (buildCounts tds).map (fun p => p.1) := by
  unfold buildCounts
  generalize ([] : List (Nat × Tags)) = cd
  induction tds generalizing cd with
  | nil => simp
  | cons q2 tds ih =>
    intro q hq
    rw [List.foldl_cons]
    rcases List.mem_cons.mp hq with hq | hq
    · rw [hq]
      apply buildCounts_aux_keys_super
      exact insertCount_key_mem cd q2.2.length q2.1
    · exact ih _ q hq

theorem foldl_max_le (l : List Nat) :
    ∀ a : Nat, (∀ x ∈ l, x ≤ l.foldl max a) ∧ a ≤ l.foldl max a := by
  induction l with
  | nil => exact fun a => ⟨by simp, le_refl a⟩
  | cons b l ih =>
    intro a
    rw [List.foldl_cons]
    constructor
    · intro x hx
      rcases List.mem_cons.mp hx with hx | hx
      · rw [hx]
        exact le_trans (le_max_right a b) (ih (max a b)).2
      · exact (ih (max a b)).1 x hx
    · exact le_trans (le_max_left a b) (ih (max a b)).2

theorem foldl_max_mem (l : List Nat) :
    ∀ a : Nat, l.foldl max a = a ∨ l.foldl max a ∈ l := by
  induction l with
  | nil => exact fun a => Or.inl rfl
  | cons b l ih =>
    intro a
    rw [List.foldl_cons]
    rcases ih (max a b) with h | h
    · rcases max_choice a b with h2 | h2
      · exact Or.inl (by rw [h, h2])
      · refine Or.inr ?_
        rw [h, h2]
        exact List.mem_cons_self b l
    · exact Or.inr (List.mem_cons_of_mem b h)

theorem pluralityPick_spec (tds : List (Tags × List String))
    (hne : tds ≠ []) (hlen : ∀ p ∈ tds, p.2 ≠ []) :
    ∃ l, (pluralityPick tds, l) ∈ tds ∧ ∀ p ∈ tds, p.2.length ≤ l.length := by
  have hkeymax : ∀ p ∈ tds, p.2.length ≤ maxCountKey (buildCounts tds) := by
    intro p hp
    have hk := buildCounts_keys tds p hp
    exact (foldl_max_le ((buildCounts tds).map (fun p => p.1)) 0).1 _ hk
  have hpos : 1 ≤ maxCountKey (buildCounts tds) := by
    cases htds : tds with
    | nil => exact absurd htds hne
    | cons q tds2 =>
      have hq2 : q.2 ≠ [] := hlen q (htds ▸ List.mem_cons_self q tds2)
      have h1 : 1 ≤ q.2.length := by
        cases hq : q.2 with
        | nil => exact absurd hq hq2
        | cons d ds => simp
      have h2 := hkeymax q (htds ▸ List.mem_cons_self q tds2)
      rw [htds] at h2
      exact le_trans h1 h2
  have hmaxmem : maxCountKey (buildCounts tds) ∈ (buildCounts tds).map (fun p => p.1) := by
    rcases foldl_max_mem ((buildCounts tds).map (fun p => p.1)) 0 with h | h
    · unfold maxCountKey at hpos
      rw [h] at hpos
      exact absurd hpos (by simp)
    · exact h
  rcases List.mem_map.mp hmaxmem with ⟨p0, hp0, hp0k⟩
  have hfind : ∃ p2, (buildCounts tds).find?
      (fun p => decide (p.1 = maxCountKey (buildCounts tds))) = some p2 := by
    have hsome : ((buildCounts tds).find?
        (fun p => decide (p.1 = maxCountKey (buildCounts tds)))).isSome := by
      rw [List.find?_isSome]
      exact ⟨p0, hp0, by simp [hp0k]⟩
    exact Option.isSome_iff_exists.mp hsome
  rcases hfind with ⟨p2, hp2⟩
  have hp2mem := List.mem_of_find?_eq_some hp2
  have hp2key : p2.1 = maxCountKey (buildCounts tds) := by
    have := List.find?_some hp2
    simpa using this
  have hpick : pluralityPick tds = p2.2 := by
    unfold pluralityPick
    rw [hp2]
  rcases buildCounts_aux_entry tds [] p2 hp2mem with h | ⟨q, hq, hql, hqv⟩
  · exact absurd h (List.not_mem_nil p2)
  · refine ⟨q.2, ?_, ?_⟩
    · rw [hpick, ← hqv]
      exact hq
    · intro p hp
      rw [hql, hp2key]
      exact hkeymax p hp

theorem guessScan_cons_untagged (dft : Option Tags) (td : String) {row : TaggedRow}
    (rest : List TaggedRow) (dict : List (Tags × List String)) (htag : row.tag = none) :
    guessScan dft td (row :: rest) dict = guessScan dft td rest dict := by
  rw [guessScan, htag]

theorem guessScan_cons_tagged_hit (dft : Option Tags) (td : String) {row : TaggedRow}
    (rest : List TaggedRow) (dict : List (Tags × List String)) {t : String}
    (htag : row.tag = some t) (hdesc : row.raw.description = td) :
    guessScan dft td (row :: rest) dict = ⟨t, row.subtag⟩ := by
  rw [guessScan, htag]
  show (if row.raw.description = td then (⟨t, row.subtag⟩ : Tags)
      else guessScan dft td rest (addDesc dict ⟨t, row.subtag⟩ row.raw.description))
    = ⟨t, row.subtag⟩
  rw [if_pos hdesc]

theorem guessScan_cons_tagged_miss (dft : Option Tags) (td : String) {row : TaggedRow}
    (rest : List TaggedRow) (dict : List (Tags × List String)) {t : String}
    (htag : row.tag = some t) (hdesc : ¬ row.raw.description = td) :
    guessScan dft td (row :: rest) dict
      = guessScan dft td rest (addDesc dict ⟨t, row.subtag⟩ row.raw.description) := by
  rw [guessScan, htag]
  show (if row.raw.description = td then (⟨t, row.subtag⟩ : Tags)
      else guessScan dft td rest (addDesc dict ⟨t, row.subtag⟩ row.raw.description))
    = _
  rw [if_neg hdesc]

theorem guessScan_match (dft : Option Tags) (td : String) :
    ∀ (rows : List TaggedRow) (dict : List (Tags × List String)) (m : TaggedRow),
      rows.find? (isTaggedMatch td) = some m →
      ∃ t, m.tag = some t ∧ guessScan dft td rows dict = ⟨t, m.subtag⟩ := by
  intro rows
  induction rows with
  | nil =>
    intro dict m h
    exact absurd h (by simp)
  | cons row rest ih =>
    intro dict m hfind
    cases htag : row.tag with
    | none =>
      have hmatch : isTaggedMatch td row = false := by
        unfold isTaggedMatch
        rw [htag]
        rfl
      rw [List.find?_cons_of_neg rest (by simp [hmatch])] at hfind
      rw [guessScan_cons_untagged dft td rest dict htag]
      exact ih dict m hfind
    | some t =>
      by_cases hdesc : row.raw.description = td
      · have hmatch : isTaggedMatch td row = true := by
          unfold isTaggedMatch
          rw [htag]
          simp [hdesc]
        rw [List.find?_cons_of_pos rest hmatch] at hfind
        have hm : row = m := by injection hfind
        rw [guessScan_cons_tagged_hit dft td rest dict htag hdesc]
        exact ⟨t, hm ▸ htag, by rw [← hm]⟩
      · have hmatch : isTaggedMatch td row = false := by
          unfold isTaggedMatch
          rw [htag]
          simp [hdesc]
        rw [List.find?_cons_of_neg rest (by simp [hmatch])] at hfind
        rw [guessScan_cons_tagged_miss dft td rest dict htag hdesc]
        exact ih _ m hfind

theorem guessScan_no_match (dft : Option Tags) (td : String) :
    ∀ (rows : List TaggedRow) (dict : List (Tags × List String)),
      rows.find? (isTaggedMatch td) = none →
      guessScan dft td rows dict = afterScan dft (foldTagDescs dict rows) := by
  intro rows
  induction rows with
  | nil => intro dict h; rfl
  | cons row rest ih =>
    intro dict hfind
    rw [List.find?_eq_none] at hfind
    have hfind2 : rest.find? (isTaggedMatch td) = none := by
      rw [List.find?_eq_none]
      intro a ha
      exact hfind a (List.mem_cons_of_mem row ha)
    cases htag : row.tag with
    | none =>
      rw [guessScan_cons_untagged dft td rest dict htag, foldTagDescs, htag]
      exact ih dict hfind2
    | some t =>
      have hdesc : ¬ row.raw.description = td := by
        intro h
        apply hfind row (List.mem_cons_self row rest)
        unfold isTaggedMatch
        rw [htag]
        simp [h]
      rw [guessScan_cons_tagged_miss dft td rest dict htag hdesc, foldTagDescs, htag]
      exact ih _ hfind2

theorem foldTagDescs_untagged (rows : List TaggedRow) (h : ∀ row ∈ rows, row.tag = none) :
    ∀ dict : List (Tags × List String), foldTagDescs dict rows = dict := by
  induction rows with
  | nil => exact fun dict => rfl
  | cons row rest ih =>
    intro dict
    rw [foldTagDescs, h row (List.mem_cons_self row rest)]
    exact ih (fun r hr => h r (List.mem_cons_of_mem row hr)) dict

/-- C8: the guess fallback chain of Tagger.guess_tags: (1) when some tagged
row in descending date order has a description equal to the target, the
guess is the tag pair of the first such row; otherwise (2) a configured
default pair is returned when present; otherwise (3) when no row is tagged,
the literal pair ("unknown", "") is returned; otherwise (4) the guess is a
tag pair occurring among the tagged rows whose number of distinct
descriptions is the largest. -/
theorem c8_guess_fallback_chain (source : List TaggedRow) (defaultTags : Option Tags)
    (targetDesc : String) :
    (∀ m : TaggedRow, (sortByDateDesc source).find? (isTaggedMatch targetDesc) = some m →
        ∃ t, m.tag = some t ∧ guessTags source defaultTags targetDesc = ⟨t, m.subtag⟩)
    ∧ ((sortByDateDesc source).find? (isTaggedMatch targetDesc) = none →
        ∀ d, defaultTags = some d → guessTags source defaultTags targetDesc = d)
    ∧ ((sortByDateDesc source).find? (isTaggedMatch targetDesc) = none → defaultTags = none →
        (∀ row ∈ source, row.tag = none) →
        guessTags source defaultTags targetDesc = ⟨"unknown", some ""⟩)
    ∧ ((sortByDateDesc source).find? (isTaggedMatch targetDesc) = none → defaultTags = none →
        (∃ row ∈ source, row.tag ≠ none) →
        (∃ row ∈ source, tagsOfRow row = some (guessTags source defaultTags targetDesc))
        ∧ ∀ t : Tags, distinctDescCount source t
            ≤ distinctDescCount source (guessTags source defaultTags targetDesc)) := by
  have hperm : List.Perm (sortByDateDesc source) source :=
    List.perm_insertionSort _ source
  have hmemiff : ∀ (t : Tags) (x : String),
      x ∈ descsOf (sortByDateDesc source) t ↔ x ∈ descsOf source t := by
    intro t x
    unfold descsOf
    constructor
    · intro hx
      rcases List.mem_map.mp hx with ⟨r, hr, hrx⟩
      exact List.mem_map.mpr ⟨r, List.mem_filter.mpr
        ⟨hperm.mem_iff.mp (List.mem_filter.mp hr).1, (List.mem_filter.mp hr).2⟩, hrx⟩
    · intro hx
      rcases List.mem_map.mp hx with ⟨r, hr, hrx⟩
      exact List.mem_map.mpr ⟨r, List.mem_filter.mpr
        ⟨hperm.mem_iff.mpr (List.mem_filter.mp hr).1, (List.mem_filter.mp hr).2⟩, hrx⟩
  have hstab : ∀ t : Tags, distinctDescCount (sortByDateDesc source) t
      = distinctDescCount source t := by
    intro t
    unfold distinctDescCount
    have hfs : (descsOf (sortByDateDesc source) t).toFinset = (descsOf source t).toFinset := by
      ext x
      simp only [List.mem_toFinset]
      exact hmemiff t x
    rw [hfs]
  refine ⟨?_, ?_, ?_, ?_⟩
  · intro m hfind
    exact guessScan_match defaultTags targetDesc (sortByDateDesc source) [] m hfind
  · intro hfind d hd
    unfold guessTags
    rw [guessScan_no_match defaultTags targetDesc (sortByDateDesc source) [] hfind, hd]
    rfl
  · intro hfind hdft hall
    unfold guessTags
    rw [guessScan_no_match defaultTags targetDesc (sortByDateDesc source) [] hfind, hdft]
    have hall2 : ∀ row ∈ sortByDateDesc source, row.tag = none :=
      fun row hrow => hall row (hperm.mem_iff.mp hrow)
    rw [foldTagDescs_untagged (sortByDateDesc source) hall2 []]
    rfl
  · intro hfind hdft hex
    have hres : guessTags source defaultTags targetDesc
        = afterScan none (foldTagDescs [] (sortByDateDesc source)) := by
      unfold guessTags
      rw [guessScan_no_match defaultTags targetDesc (sortByDateDesc source) [] hfind, hdft]
    obtain ⟨row0, hrow0, htag0⟩ := hex
    have hrow0s : row0 ∈ sortByDateDesc source := hperm.mem_iff.mpr hrow0
    cases hs : row0.tag with
    | none => exact absurd hs htag0
    | some s =>
      have hdesc0 : descsOf (sortByDateDesc source) ⟨s, row0.subtag⟩ ≠ [] := by
        have hmem : row0.raw.description ∈ descsOf (sortByDateDesc source) ⟨s, row0.subtag⟩ := by
          unfold descsOf
          exact List.mem_map.mpr
            ⟨row0, List.mem_filter.mpr ⟨hrow0s, by simp [tagsOfRow, hs]⟩, rfl⟩
        exact List.ne_nil_of_mem hmem
      have hkey := (foldTagDescs_keys_iff (sortByDateDesc source) ⟨s, row0.subtag⟩).mpr hdesc0
      have hfinal_ne : foldTagDescs [] (sortByDateDesc source) ≠ [] := by
        intro h
        rw [h] at hkey
        simp [dictKeys] at hkey
      have hpick : afterScan none (foldTagDescs [] (sortByDateDesc source))
          = pluralityPick (foldTagDescs [] (sortByDateDesc source)) := by
        show (if (foldTagDescs [] (sortByDateDesc source)).isEmpty
            then (⟨"unknown", some ""⟩ : Tags)
            else pluralityPick (foldTagDescs [] (sortByDateDesc source))) = _
        rw [if_neg (by simp [List.isEmpty_iff, hfinal_ne])]
      have hshape := foldTagDescs_entry_shape (sortByDateDesc source)
      have hplen : ∀ p ∈ foldTagDescs [] (sortByDateDesc source), p.2 ≠ [] :=
        fun p hp => (hshape p hp).2.1
      obtain ⟨l, hlmem, hlmax⟩ :=
        pluralityPick_spec (foldTagDescs [] (sortByDateDesc source)) hfinal_ne hplen
      have hcnt := hshape _ hlmem
      have hresult : guessTags source defaultTags targetDesc
          = pluralityPick (foldTagDescs [] (sortByDateDesc source)) := by
        rw [hres, hpick]
      constructor
      · have hdsne : descsOf (sortByDateDesc source)
            (pluralityPick (foldTagDescs [] (sortByDateDesc source))) ≠ [] := by
          intro h
          have hzero : distinctDescCount (sortByDateDesc source)
              (pluralityPick (foldTagDescs [] (sortByDateDesc source))) = 0 := by
            unfold distinctDescCount
            rw [h]
            rfl
          have hl1 := hcnt.2.2
          rw [hzero, List.length_eq_zero] at hl1
          exact hcnt.2.1 hl1
        cases hflt : (sortByDateDesc source).filter
            (fun r => decide (tagsOfRow r
              = some (pluralityPick (foldTagDescs [] (sortByDateDesc source))))) with
        | nil =>
          exact absurd (by unfold descsOf; rw [hflt]; rfl) hdsne
        | cons r2 rest2 =>
          have hr2 : r2 ∈ (sortByDateDesc source).filter
              (fun r => decide (tagsOfRow r
                = some (pluralityPick (foldTagDescs [] (sortByDateDesc source))))) := by
            rw [hflt]
            exact List.mem_cons_self r2 rest2
          have hr2m := List.mem_filter.mp hr2
          refine ⟨r2, hperm.mem_iff.mp hr2m.1, ?_⟩
          rw [hresult]
          simpa using hr2m.2
      · intro t
        rw [hresult, ← hstab t, ← hstab]
        cases hlk : lookupDescs (foldTagDescs [] (sortByDateDesc source)) t with
        | none =>
          have hnokey := (lookupDescs_none_iff _ _).mp hlk
          have hdse : descsOf (sortByDateDesc source) t = [] := by
            by_contra hne2
            exact hnokey ((foldTagDescs_keys_iff _ t).mpr hne2)
          have : distinctDescCount (sortByDateDesc source) t = 0 := by
            unfold distinctDescCount
            rw [hdse]
            rfl
          rw [this]
          exact Nat.zero_le _
        | some l2 =>
          have hl2mem := lookupDescs_mem hlk
          have hl2cnt := hshape _ hl2mem
          have hle := hlmax _ hl2mem
          rw [← hl2cnt.2.2, ← hcnt.2.2]
          exact hle

/-- C8 witness: at a concrete source with one tagged row whose description
equals the target, the description-match hypothesis is discharged and the
guess is that row's tag pair. -/
theorem c8_guess_fallback_chain_witness :
    (∃ t, (⟨⟨"chk", "debit", ⟨2024, 1, 5⟩, 1, "Coffee"⟩, some "Food", some "C", 3⟩ : TaggedRow).tag
          = some t
       ∧ guessTags [⟨⟨"chk", "debit", ⟨2024, 1, 5⟩, 1, "Coffee"⟩, some "Food", some "C", 3⟩]
            none "Coffee"
          = ⟨t, (⟨⟨"chk", "debit", ⟨2024, 1, 5⟩, 1, "Coffee"⟩, some "Food", some "C", 3⟩
              : TaggedRow).subtag⟩) :=
  (c8_guess_fallback_chain
    [⟨⟨"chk", "debit", ⟨2024, 1, 5⟩, 1, "Coffee"⟩, some "Food", some "C", 3⟩] none "Coffee").1
    ⟨⟨"chk", "debit", ⟨2024, 1, 5⟩, 1, "Coffee"⟩, some "Food", some "C", 3⟩ (by decide)

/-- The CSV quote character. -/
def quoteChar : Char := Char.ofNat 34

/-- The CSV field separator. -/
def commaChar : Char := ','

/-- The CSV record terminator written by polars write_csv. -/
def nlChar : Char := Char.ofNat 10

/-- Carriage return, quoted by the writer to stay unambiguous. -/
def crChar : Char := Char.ofNat 13

/-- Decimal digit character. -/
def digitChar (d : Nat) : Char := Char.ofNat (48 + d)

/-- Decimal rendering of the hash column value. -/
def natStrData (n : Nat) : List Char :=
  if n = 0 then [digitChar 0] else (Nat.digits 10 n).reverse.map digitChar

/-- Fields that must be quoted under the necessary-quoting style used by
polars write_csv: fields containing the separator, the quote character or a
line break. -/
def needsQuote (s : List Char) : Bool :=
  s.any (fun c => c = commaChar ∨ c = quoteChar ∨ c = nlChar ∨ c = crChar)

/-- Doubling of embedded quote characters inside a quoted field. -/
def escapeQuotes (s : List Char) : List Char :=
  s.flatMap (fun c => if c = quoteChar then [quoteChar, quoteChar] else [c])

/-- Serialization of one nullable string cell by write_csv: null becomes the
empty field, the empty string is written quoted to stay distinguishable
from null, fields containing special characters are quoted with embedded
quotes doubled, and plain fields are written bare. -/
def encodeField : Option String → List Char
  | none => []
  | some s =>
    if s.data = [] then [quoteChar, quoteChar]
    else if needsQuote s.data then quoteChar :: (escapeQuotes s.data ++ [quoteChar])
    else s.data

/-- Serialization of one Tag Store row: tag, subtag, hash separated by
commas. -/
def renderEntry (e : TagEntry) : List Char :=
  encodeField e.tag ++ commaChar :: (encodeField e.subtag ++ commaChar :: natStrData e.hash)

/-- The header row written by write_csv for TAG_SCHEMA. -/
def headerChars : List Char :=
  String.data "tag,subtag,hash"

/-- Model of write_tags_file (finalyze/source/tag.py): sort the table by
(tag, subtag, hash) and serialize it as CSV with a header line, one line
per row, newline-terminated. -/
def writeTagsString (t : List TagEntry) : String :=
  String.mk (headerChars ++ nlChar :: (sortTagEntries t).flatMap (fun e => renderEntry e ++ [nlChar]))

/-- CSV scanner state machine (models the polars CSV reader on the subset
of CSV produced by write_csv).  Arguments: remaining input, inside-quotes
flag, current-field-was-quoted flag, current field (chars so far), current
record (cells so far), finished records.  A cell is a quoted-flag and its
content.  Returns none on an unterminated quote. -/
def scanCsv (input : List Char) (inQ q : Bool) (fld : List Char)
    (row : List (Bool × List Char)) (rows : List (List (Bool × List Char))) :
    Option (List (List (Bool × List Char))) :=
  match input, inQ with
  | [], _ =>
    if inQ then none
    else if fld = [] ∧ q = false ∧ row = [] then some rows
    else some (rows ++ [row ++ [(q, fld)]])
  | [c], true =>
    if c = quoteChar then scanCsv [] false q fld row rows
    else scanCsv [] true q (fld ++ [c]) row rows
  | c :: c2 :: rest2, true =>
    if c = quoteChar then
      if c2 = quoteChar then scanCsv rest2 true q (fld ++ [quoteChar]) row rows
      else scanCsv (c2 :: rest2) false q fld row rows
    else scanCsv (c2 :: rest2) true q (fld ++ [c]) row rows
  | c :: rest, false =>
    if c = commaChar then scanCsv rest false false [] (row ++ [(q, fld)]) rows
    else if c = nlChar then scanCsv rest false false [] [] (rows ++ [row ++ [(q, fld)]])
    else if c = quoteChar then scanCsv rest true true fld row rows
    else scanCsv rest false q (fld ++ [c]) row rows
termination_by input.length
decreasing_by all_goals simp <;> omega

/-- Deserialization of one scanned cell: a bare empty field is null, every
other field is the string of its content. -/
def decodeCell (c : Bool × List Char) : Option String :=
  if c.1 = false ∧ c.2 = [] then none else some (String.mk c.2)

/-- Deserialization of the hash cell with the UInt64 schema: the field must
be a nonempty run of digits. -/
def parseNatCell (c : Bool × List Char) : Option Nat :=
  if c.2 ≠ [] ∧ c.2.all (fun ch => ch.isDigit) then
    some (c.2.foldl (fun a ch => a * 10 + (ch.toNat - 48)) 0)
  else none

/-- Deserialization of one record under TAG_SCHEMA: exactly three cells,
the last one numeric. -/
def decodeRow : List (Bool × List Char) → Option TagEntry
  | [t, s, h] =>
    match parseNatCell h with
    | some n => some ⟨decodeCell t, decodeCell s, n⟩
    | none => none
  | _ => none

/-- Model of read_tags_file (finalyze/source/tag.py): parse the CSV text,
skip the header record, and decode every remaining record under
TAG_SCHEMA. -/
def readTagsString (s : String) : Option (List TagEntry) :=
  match scanCsv s.data false false [] [] [] with
  | some (_hdr :: dataRows) => dataRows.mapM decodeRow
  | _ => none

/-- Scanned form of one serialized row. -/
def cellOf : Option String → (Bool × List Char)
  | none => (false, [])
  | some s => (if s.data = [] then true else if needsQuote s.data then true else false, s.data)

/-- Scanned cells of one serialized Tag Store row. -/
def cellsOf (e : TagEntry) : List (Bool × List Char) :=
  [cellOf e.tag, cellOf e.subtag, (false, natStrData e.hash)]

theorem scanCsv_comma (rest : List Char) (q : Bool) (fld : List Char)
    (row : List (Bool × List Char)) (rows : List (List (Bool × List Char))) :
    scanCsv (commaChar :: rest) false q fld row rows
      = scanCsv rest false false [] (row ++ [(q, fld)]) rows := by
  simp only [scanCsv]
  simp

theorem scanCsv_nl (rest : List Char) (q : Bool) (fld : List Char)
    (row : List (Bool × List Char)) (rows : List (List (Bool × List Char))) :
    scanCsv (nlChar :: rest) false q fld row rows
      = scanCsv rest false false [] [] (rows ++ [row ++ [(q, fld)]]) := by
  simp only [scanCsv]
  simp
  intro h
  exact absurd h (by decide)

theorem scanCsv_open_quote (rest : List Char) (q : Bool) (fld : List Char)
    (row : List (Bool × List Char)) (rows : List (List (Bool × List Char))) :
    scanCsv (quoteChar :: rest) false q fld row rows
      = scanCsv rest true true fld row rows := by
  simp only [scanCsv]
  rw [if_neg (by decide), if_neg (by decide), if_pos trivial]

theorem scanCsv_plain (c : Char) (rest : List Char) (q : Bool) (fld : List Char)
    (row : List (Bool × List Char)) (rows : List (List (Bool × List Char)))
    (hc : ¬ c = commaChar) (hn : ¬ c = nlChar) (hq : ¬ c = quoteChar) :
    scanCsv (c :: rest) false q fld row rows
      = scanCsv rest false q (fld ++ [c]) row rows := by
  simp only [scanCsv]
  rw [if_neg hc, if_neg hn, if_neg hq]

theorem scanCsv_eof_start (rows : List (List (Bool × List Char))) :
    scanCsv [] false false [] [] rows = some rows := by
  simp only [scanCsv]
  rw [if_neg (by simp), if_pos (by simp)]

theorem scanCsv_q_escape (rest2 : List Char) (q : Bool) (fld : List Char)
    (row : List (Bool × List Char)) (rows : List (List (Bool × List Char))) :
    scanCsv (quoteChar :: quoteChar :: rest2) true q fld row rows
      = scanCsv rest2 true q (fld ++ [quoteChar]) row rows := by
  simp only [scanCsv]
  simp

theorem scanCsv_q_close (c2 : Char) (rest2 : List Char) (q : Bool) (fld : List Char)
    (row : List (Bool × List Char)) (rows : List (List (Bool × List Char)))
    (h : ¬ c2 = quoteChar) :
    scanCsv (quoteChar :: c2 :: rest2) true q fld row rows
      = scanCsv (c2 :: rest2) false q fld row rows := by
  simp only [scanCsv]
  rw [if_pos trivial, if_neg h]

theorem scanCsv_q_close_eof (q : Bool) (fld : List Char)
    (row : List (Bool × List Char)) (rows : List (List (Bool × List Char))) :
    scanCsv [quoteChar] true q fld row rows = scanCsv [] false q fld row rows := by
  simp only [scanCsv]
  rw [if_pos trivial]

theorem scanCsv_q_char (c : Char) (rest : List Char) (q : Bool) (fld : List Char)
    (row : List (Bool × List Char)) (rows : List (List (Bool × List Char)))
    (h : ¬ c = quoteChar) :
    scanCsv (c :: rest) true q fld row rows = scanCsv rest true q (fld ++ [c]) row rows := by
  cases rest with
  | nil =>
    simp only [scanCsv]
    rw [if_neg h]
  | cons c2 rest2 =>
    simp only [scanCsv]
    rw [if_neg h]

theorem scanCsv_quoted_content (s : List Char) :
    ∀ (tail : List Char) (q : Bool) (fld : List Char) (row : List (Bool × List Char))
      (rows : List (List (Bool × List Char))),
      (∀ c2, tail.head? = some c2 → ¬ c2 = quoteChar) →
      scanCsv (escapeQuotes s ++ quoteChar :: tail) true q fld row rows
        = scanCsv tail false q (fld ++ s) row rows := by
  induction s with
  | nil =>
    intro tail q fld row rows htail
    show scanCsv (quoteChar :: tail) true q fld row rows = _
    cases tail with
    | nil =>
      rw [scanCsv_q_close_eof, List.append_nil]
    | cons c2 t2 =>
      rw [scanCsv_q_close c2 t2 q fld row rows (htail c2 rfl), List.append_nil]
  | cons c s ih =>
    intro tail q fld row rows htail
    by_cases hc : c = quoteChar
    · subst hc
      have hesc : escapeQuotes (quoteChar :: s) = quoteChar :: quoteChar :: escapeQuotes s := by
        simp [escapeQuotes]
      rw [hesc, List.cons_append, List.cons_append, scanCsv_q_escape]
      rw [ih tail q (fld ++ [quoteChar]) row rows htail, List.append_assoc]
      rfl
    · have hesc : escapeQuotes (c :: s) = c :: escapeQuotes s := by
        simp [escapeQuotes, hc]
      rw [hesc, List.cons_append, scanCsv_q_char c _ q fld row rows hc]
      rw [ih tail q (fld ++ [c]) row rows htail, List.append_assoc]
      rfl

theorem scanCsv_unquoted_content (s : List Char) :
    ∀ (rest : List Char) (q : Bool) (fld : List Char) (row : List (Bool × List Char))
      (rows : List (List (Bool × List Char))),
      (∀ c ∈ s, ¬ c = commaChar ∧ ¬ c = nlChar ∧ ¬ c = quoteChar) →
      scanCsv (s ++ rest) false q fld row rows = scanCsv rest false q (fld ++ s) row rows := by
  induction s with
  | nil =>
    intro rest q fld row rows _
    rw [List.nil_append, List.append_nil]
  | cons c s ih =>
    intro rest q fld row rows hs
    have hc := hs c (List.mem_cons_self c s)
    rw [List.cons_append, scanCsv_plain c _ q fld row rows hc.1 hc.2.1 hc.2.2]
    rw [ih rest q (fld ++ [c]) row rows (fun c2 hc2 => hs c2 (List.mem_cons_of_mem c hc2))]
    rw [List.append_assoc]
    rfl

theorem needsQuote_false_chars {s : List Char} (h : needsQuote s = false) :
    ∀ c ∈ s, ¬ c = commaChar ∧ ¬ c = nlChar ∧ ¬ c = quoteChar := by
  intro c hc
  unfold needsQuote at h
  rw [List.any_eq_false] at h
  have h2 := h c hc
  simp only [decide_eq_true_eq] at h2
  push_neg at h2
  exact ⟨h2.1, h2.2.2.1, h2.2.1⟩

theorem encodeField_some (s : String) :
    encodeField (some s)
      = (if s.data = [] then [quoteChar, quoteChar]
         else if needsQuote s.data = true then quoteChar :: (escapeQuotes s.data ++ [quoteChar])
         else s.data) := rfl

theorem cellOf_some (s : String) :
    cellOf (some s)
      = (if s.data = [] then true else if needsQuote s.data = true then true else false,
         s.data) := rfl

theorem scanCsv_field (v : Option String) (d : Char) (rest : List Char)
    (row : List (Bool × List Char)) (rows : List (List (Bool × List Char)))
    (hd : d = commaChar ∨ d = nlChar) :
    scanCsv (encodeField v ++ d :: rest) false false [] row rows
      = scanCsv (d :: rest) false (cellOf v).1 (cellOf v).2 row rows := by
  have hdq : ¬ d = quoteChar := by
    rcases hd with h | h <;> rw [h] <;> decide
  cases v with
  | none =>
    show scanCsv (d :: rest) false false [] row rows = _
    rfl
  | some s =>
    rw [cellOf_some]
    by_cases he : s.data = []
    · have henc : encodeField (some s) = [quoteChar, quoteChar] := by
        rw [encodeField_some, if_pos he]
      rw [henc]
      show scanCsv (quoteChar :: quoteChar :: (d :: rest)) false false [] row rows = _
      rw [scanCsv_open_quote, scanCsv_q_close d rest true [] row rows hdq]
      rw [if_pos he, he]
    · by_cases hq : needsQuote s.data = true
      · have hbig : encodeField (some s) ++ d :: rest
            = quoteChar :: (escapeQuotes s.data ++ quoteChar :: d :: rest) := by
          rw [encodeField_some, if_neg he, if_pos hq]
          simp [List.append_assoc]
        rw [hbig, scanCsv_open_quote]
        have hcontent := scanCsv_quoted_content s.data (d :: rest) true [] row rows
          (fun c2 hc2 => by
            have hcd : c2 = d := by injection hc2 with h2; exact h2.symm
            rw [hcd]
            exact hdq)
        rw [hcontent, if_neg he, if_pos hq, List.nil_append]
      · have henc : encodeField (some s) = s.data := by
          rw [encodeField_some, if_neg he, if_neg hq]
        rw [henc]
        rw [scanCsv_unquoted_content s.data (d :: rest) false [] row rows
          (needsQuote_false_chars (by simpa using hq))]
        rw [if_neg he, if_neg hq, List.nil_append]

theorem digitChar_not_special {d : Nat} (hd : d < 10) :
    ¬ digitChar d = commaChar ∧ ¬ digitChar d = nlChar ∧ ¬ digitChar d = quoteChar := by
  interval_cases d <;> exact ⟨by decide, by decide, by decide⟩

theorem digitChar_toNat {d : Nat} (hd : d < 10) : (digitChar d).toNat = 48 + d := by
  interval_cases d <;> decide

theorem digitChar_isDigit {d : Nat} (hd : d < 10) : (digitChar d).isDigit = true := by
  interval_cases d <;> decide

theorem natStrData_chars (n : Nat) :
    ∀ c ∈ natStrData n, ¬ c = commaChar ∧ ¬ c = nlChar ∧ ¬ c = quoteChar := by
  intro c hc
  unfold natStrData at hc
  by_cases h0 : n = 0
  · rw [if_pos h0] at hc
    have hcd : c = digitChar 0 := by simpa using hc
    rw [hcd]
    exact digitChar_not_special (by norm_num)
  · rw [if_neg h0] at hc
    rcases List.mem_map.mp hc with ⟨d, hdm, hdc⟩
    have hd10 : d < 10 := Nat.digits_lt_base (by norm_num) (List.mem_reverse.mp hdm)
    rw [← hdc]
    exact digitChar_not_special hd10

theorem natStrData_ne_nil (n : Nat) : natStrData n ≠ [] := by
  unfold natStrData
  by_cases h0 : n = 0
  · rw [if_pos h0]
    simp
  · rw [if_neg h0]
    simp only [ne_eq, List.map_eq_nil_iff, List.reverse_eq_nil_iff]
    exact Nat.digits_ne_nil_iff_ne_zero.mpr h0

theorem natStrData_digits (n : Nat) : ∀ c ∈ natStrData n, c.isDigit = true := by
  intro c hc
  unfold natStrData at hc
  by_cases h0 : n = 0
  · rw [if_pos h0] at hc
    have hcd : c = digitChar 0 := by simpa using hc
    rw [hcd]
    exact digitChar_isDigit (by norm_num)
  · rw [if_neg h0] at hc
    rcases List.mem_map.mp hc with ⟨d, hdm, hdc⟩
    have hd10 : d < 10 := Nat.digits_lt_base (by norm_num) (List.mem_reverse.mp hdm)
    rw [← hdc]
    exact digitChar_isDigit hd10

theorem parse_fold (ds : List Nat) (hds : ∀ d ∈ ds, d < 10) :
    ∀ acc : Nat,
      (ds.reverse.map digitChar).foldl (fun a ch => a * 10 + (ch.toNat - 48)) acc
        = acc * 10 ^ ds.length + Nat.ofDigits 10 ds := by
  induction ds with
  | nil =>
    intro acc
    simp [Nat.ofDigits_nil]
  | cons d ds ih =>
    intro acc
    rw [List.reverse_cons, List.map_append, List.foldl_append]
    rw [ih (fun d2 hd2 => hds d2 (List.mem_cons_of_mem d hd2)) acc]
    have hd10 : d < 10 := hds d (List.mem_cons_self d ds)
    simp only [List.map_cons, List.map_nil, List.foldl_cons, List.foldl_nil]
    rw [digitChar_toNat hd10]
    rw [Nat.ofDigits_cons, List.length_cons]
    have h48 : 48 + d - 48 = d := by omega
    rw [h48]
    ring

theorem parseNatCell_natStr (n : Nat) : parseNatCell (false, natStrData n) = some n := by
  unfold parseNatCell
  rw [if_pos ⟨natStrData_ne_nil n, List.all_eq_true.mpr (natStrData_digits n)⟩]
  congr 1
  show (natStrData n).foldl (fun a ch => a * 10 + (ch.toNat - 48)) 0 = n
  unfold natStrData
  by_cases h0 : n = 0
  · rw [if_pos h0, h0]
    decide
  · rw [if_neg h0]
    have hds : ∀ d ∈ Nat.digits 10 n, d < 10 :=
      fun d hd => Nat.digits_lt_base (by norm_num) hd
    rw [parse_fold (Nat.digits 10 n) hds 0]
    rw [Nat.zero_mul, Nat.zero_add, Nat.ofDigits_digits]

theorem decodeCell_cellOf (v : Option String) : decodeCell (cellOf v) = v := by
  cases v with
  | none => rfl
  | some s =>
    rw [cellOf_some]
    unfold decodeCell
    by_cases he : s.data = []
    · rw [if_pos he]
      rw [if_neg (by simp)]
    · rw [if_neg he]
      by_cases hq : needsQuote s.data = true
      · rw [if_pos hq, if_neg (by simp [he])]
      · rw [if_neg hq, if_neg (by simp [he])]

theorem decodeRow_cellsOf (e : TagEntry) : decodeRow (cellsOf e) = some e := by
  show (match parseNatCell (false, natStrData e.hash) with
    | some n => some (⟨decodeCell (cellOf e.tag), decodeCell (cellOf e.subtag), n⟩ : TagEntry)
    | none => none) = some e
  rw [parseNatCell_natStr]
  rw [decodeCell_cellOf, decodeCell_cellOf]

theorem mapM_decodeRow (entries : List TagEntry) :
    (entries.map cellsOf).mapM decodeRow = some entries := by
  induction entries with
  | nil => rfl
  | cons e es ih =>
    rw [List.map_cons, List.mapM_cons, decodeRow_cellsOf, ih]
    rfl

theorem scanCsv_entry (e : TagEntry) (rest : List Char)
    (rows : List (List (Bool × List Char))) :
    scanCsv (renderEntry e ++ nlChar :: rest) false false [] [] rows
      = scanCsv rest false false [] [] (rows ++ [cellsOf e]) := by
  have hassoc : renderEntry e ++ nlChar :: rest
      = encodeField e.tag ++ commaChar :: (encodeField e.subtag
          ++ commaChar :: (natStrData e.hash ++ nlChar :: rest)) := by
    simp [renderEntry, List.append_assoc]
  rw [hassoc]
  rw [scanCsv_field e.tag commaChar _ [] rows (Or.inl rfl)]
  rw [scanCsv_comma]
  rw [scanCsv_field e.subtag commaChar _ _ rows (Or.inl rfl)]
  rw [scanCsv_comma]
  rw [scanCsv_unquoted_content (natStrData e.hash) (nlChar :: rest) false [] _ rows
    (natStrData_chars e.hash)]
  rw [scanCsv_nl]
  simp [cellsOf]

theorem scanCsv_header (body : List Char) (rows : List (List (Bool × List Char))) :
    scanCsv (headerChars ++ nlChar :: body) false false [] [] rows
      = scanCsv body false false [] []
          (rows ++ [[(false, String.data "tag"), (false, String.data "subtag"),
            (false, String.data "hash")]]) := by
  have hh : headerChars ++ nlChar :: body
      = String.data "tag" ++ commaChar :: (String.data "subtag"
          ++ commaChar :: (String.data "hash" ++ nlChar :: body)) := rfl
  rw [hh]
  rw [scanCsv_unquoted_content (String.data "tag") _ false [] [] rows (by decide)]
  rw [scanCsv_comma]
  rw [scanCsv_unquoted_content (String.data "subtag") _ false [] _ rows (by decide)]
  rw [scanCsv_comma]
  rw [scanCsv_unquoted_content (String.data "hash") _ false [] _ rows (by decide)]
  rw [scanCsv_nl]
  simp

theorem scanCsv_rows (entries : List TagEntry) :
    ∀ rows : List (List (Bool × List Char)),
      scanCsv (entries.flatMap (fun e => renderEntry e ++ [nlChar])) false false [] [] rows
        = some (rows ++ entries.map cellsOf) := by
  induction entries with
  | nil =>
    intro rows
    rw [List.flatMap_nil, scanCsv_eof_start]
    simp
  | cons e es ih =>
    intro rows
    rw [List.flatMap_cons]
    have hassoc : (renderEntry e ++ [nlChar]) ++ es.flatMap (fun e => renderEntry e ++ [nlChar])
        = renderEntry e ++ nlChar :: es.flatMap (fun e => renderEntry e ++ [nlChar]) := by
      simp [List.append_assoc]
    rw [hassoc, scanCsv_entry e _ rows, ih (rows ++ [cellsOf e])]
    simp [List.append_assoc]

/-- C9: Tag Store round-trip: for every tag table, serializing it with
write_tags_file and parsing the result with read_tags_file yields exactly
the table sorted by the canonical (tag, subtag, hash) order — structurally
and value-equal, for arbitrary tag and subtag contents (nulls, empty
strings, embedded separators, quotes and newlines included). -/
theorem c9_tag_store_round_trip (t : List TagEntry) :
    readTagsString (writeTagsString t) = some (sortTagEntries t) := by
  unfold readTagsString writeTagsString
  show (match scanCsv (headerChars
      ++ nlChar :: (sortTagEntries t).flatMap (fun e => renderEntry e ++ [nlChar]))
      false false [] [] [] with
    | some (_hdr :: dataRows) => dataRows.mapM decodeRow
    | _ => none) = some (sortTagEntries t)
  rw [scanCsv_header, scanCsv_rows]
  simp only [List.nil_append, List.singleton_append]
  show ((sortTagEntries t).map cellsOf).mapM decodeRow = some (sortTagEntries t)
  exact mapM_decodeRow (sortTagEntries t)
